import Mathlib

/-!
Verification development for the threadsafety, free-list and in-memory file
subsystems of the hdf5 repository.

The definitions below are shallow embeddings of the C sources:
the H5TS API-lock and DLFTT-mutex code, the H5FL free-list arenas, the
H5FD core (in-memory) file driver and the POSIX-common read shim.
Machine integers are modelled as Nat or Int, with explicit reductions
modulo powers of two where C conversions matter.  Fallible C paths
return Option or Except, or carry an explicit status Bool.
-/

namespace HDF5

/-! ### Common numeric model: haddr_t, HDoff_t and the overflow macros
(from H5FDposix_common.h).  haddr_t and hsize_t are unsigned 64-bit,
HDoff_t is signed 64-bit, so H5_POSIX_MAXADDR = 2 ^ 63 - 1. -/

def haddrUndef : Nat := 2 ^ 64 - 1

def posixMaxAddr : Nat := 2 ^ 63 - 1

/-- H5FD_POSIX_ADDR_OVERFLOW: addr is HADDR_UNDEF or has bits outside
MAXADDR (for values below 2 ^ 64 that is exactly being above MAXADDR). -/
def H5FD_POSIX_ADDR_OVERFLOW (a : Nat) : Bool :=
  a == haddrUndef || posixMaxAddr < a

/-- H5FD_POSIX_SIZE_OVERFLOW: size has bits outside MAXADDR. -/
def H5FD_POSIX_SIZE_OVERFLOW (z : Nat) : Bool :=
  posixMaxAddr < z

/-- Value of an unsigned 64-bit quantity reinterpreted as signed (HDoff_t). -/
def toOff (x : Nat) : Int :=
  if x ≤ posixMaxAddr then (x : Int) else (x : Int) - 2 ^ 64

/-- H5FD_POSIX_REGION_OVERFLOW: addr overflow, size overflow, wrapped sum
equal to HADDR_UNDEF, or signed comparison (HDoff_t)(A+Z) < (HDoff_t)A. -/
def H5FD_POSIX_REGION_OVERFLOW (a z : Nat) : Bool :=
  H5FD_POSIX_ADDR_OVERFLOW a || H5FD_POSIX_SIZE_OVERFLOW z ||
    (a + z) % 2 ^ 64 == haddrUndef ||
    decide (toOff ((a + z) % 2 ^ 64) < toOff (a % 2 ^ 64))

theorem region_overflow_false_iff (a z : Nat) :
    H5FD_POSIX_REGION_OVERFLOW a z = false ↔ a + z ≤ posixMaxAddr := by
  unfold H5FD_POSIX_REGION_OVERFLOW H5FD_POSIX_ADDR_OVERFLOW
    H5FD_POSIX_SIZE_OVERFLOW
  constructor
  · intro h
    simp only [Bool.or_eq_false_iff, decide_eq_false_iff_not, beq_eq_false_iff_ne,
      ne_eq, not_lt] at h
    obtain ⟨⟨⟨⟨ha1, ha2⟩, hz⟩, hs⟩, hcmp⟩ := h
    by_contra hgt
    push_neg at hgt
    have hlt64 : a + z < 2 ^ 64 := by
      unfold posixMaxAddr at ha2 hz
      omega
    rw [Nat.mod_eq_of_lt hlt64] at hs hcmp
    have ha64 : a < 2 ^ 64 := by unfold posixMaxAddr at ha2; omega
    rw [Nat.mod_eq_of_lt ha64] at hcmp
    unfold toOff at hcmp
    have hnle : ¬ (a + z ≤ posixMaxAddr) := by omega
    rw [if_neg hnle, if_pos ha2] at hcmp
    unfold posixMaxAddr at ha2 hz hnle
    unfold haddrUndef at hs
    omega
  · intro h
    have ha : a ≤ posixMaxAddr := le_trans (Nat.le_add_right a z) h
    have hz : z ≤ posixMaxAddr := le_trans (Nat.le_add_left z a) h
    have hlt64 : a + z < 2 ^ 64 := by unfold posixMaxAddr at h; omega
    have ha64 : a < 2 ^ 64 := by unfold posixMaxAddr at ha; omega
    simp only [Bool.or_eq_false_iff, decide_eq_false_iff_not, beq_eq_false_iff_ne,
      ne_eq, not_lt]
    refine ⟨⟨⟨⟨?_, by omega⟩, by omega⟩, ?_⟩, ?_⟩
    · unfold haddrUndef posixMaxAddr at *; omega
    · rw [Nat.mod_eq_of_lt hlt64]; unfold haddrUndef posixMaxAddr at *; omega
    · rw [Nat.mod_eq_of_lt hlt64, Nat.mod_eq_of_lt ha64]
      unfold toOff
      rw [if_pos h, if_pos ha]
      exact_mod_cast Nat.le_add_right a z

/-! ### DLFTT-aware mutex (H5TSdlftt_mutex.h)

The struct H5TS_dlftt_mutex_t holds a plain OS mutex and a cached DLFTT
snapshot.  The plain mutex is modelled from the spec as a Bool that lock
and unlock toggle and that never fails; H5TS__get_dlftt is modelled as a
pure read of the calling thread DLFTT counter (its only C failure modes
are thread-local-key errors, outside this model).  Operations on the
underlying OS mutex are recorded in a trace so that "no OS mutex state
change" is expressible. -/

structure H5TS_dlftt_mutex_t where
  dlftt : Nat
  locked : Bool
deriving DecidableEq, Repr

inductive MtxOp
  | lock
  | unlock
deriving DecidableEq, Repr

/-- H5TS_dlftt_mutex_acquire: store the thread DLFTT into mtx.dlftt; take
the OS mutex only when that snapshot is zero.  Returns the status, the
new mutex state and the trace of OS-mutex operations performed. -/
def H5TS_dlftt_mutex_acquire (threadDlftt : Nat) (mtx : H5TS_dlftt_mutex_t) :
    Bool × H5TS_dlftt_mutex_t × List MtxOp :=
  let mtx := { mtx with dlftt := threadDlftt }
  if mtx.dlftt = 0 then
    (true, { mtx with locked := true }, [MtxOp.lock])
  else
    (true, mtx, [])

/-- H5TS_dlftt_mutex_release: release the OS mutex only when the snapshot
stored in the mutex by the matching acquire is zero.  The current thread
DLFTT value is not consulted at all. -/
def H5TS_dlftt_mutex_release (mtx : H5TS_dlftt_mutex_t) :
    Bool × H5TS_dlftt_mutex_t × List MtxOp :=
  if mtx.dlftt = 0 then
    (true, { mtx with locked := false }, [MtxOp.unlock])
  else
    (true, mtx, [])

/-! ### Global API lock, rw-lock + DLFTT variant (H5TS, H5_HAVE_CONCURRENCY)

Per the design notes the rw-lock + DLFTT build is the canonical variant.
The state visible to one thread is its DLFTT counter together with the
number of write holds it has on the API rw-lock.  The rw-lock itself is
not part of the repository sources; H5TS_rwlock_trywrlock and
H5TS_rwlock_wrunlock are modelled from the spec: trywrlock never blocks
and, in this single-thread view, always succeeds (an idle lock is taken
and a writer may recursively re-acquire); wrunlock drops one hold. -/

/-- Claim C2: when the calling thread DLFTT counter is nonzero at acquire
time, a matched H5TS_dlftt_mutex_acquire / H5TS_dlftt_mutex_release pair
returns success twice, performs no operation on the underlying OS mutex
(empty operation traces, lock state unchanged), and the release bases its
decision on the DLFTT snapshot that the acquire stored into the mutex
(the release consults only that stored snapshot, never the thread). -/
theorem dlftt_mutex_pair_noop (d : Nat) (mtx : H5TS_dlftt_mutex_t)
    (hd : d ≠ 0) :
    (H5TS_dlftt_mutex_acquire d mtx).1 = true ∧
      (H5TS_dlftt_mutex_acquire d mtx).2.1.dlftt = d ∧
      (H5TS_dlftt_mutex_acquire d mtx).2.2 = [] ∧
      (H5TS_dlftt_mutex_release (H5TS_dlftt_mutex_acquire d mtx).2.1).1 = true ∧
      (H5TS_dlftt_mutex_release (H5TS_dlftt_mutex_acquire d mtx).2.1).2.2 = [] ∧
      (H5TS_dlftt_mutex_release
        (H5TS_dlftt_mutex_acquire d mtx).2.1).2.1.locked = mtx.locked := by
  simp [H5TS_dlftt_mutex_acquire, H5TS_dlftt_mutex_release, hd]

/-- Witness for C2 with DLFTT value one on an unlocked mutex. -/
theorem dlftt_mutex_pair_noop_witness :
    (H5TS_dlftt_mutex_acquire 1 ⟨0, false⟩).1 = true ∧
      (H5TS_dlftt_mutex_acquire 1 ⟨0, false⟩).2.1.dlftt = 1 ∧
      (H5TS_dlftt_mutex_acquire 1 ⟨0, false⟩).2.2 = [] ∧
      (H5TS_dlftt_mutex_release (H5TS_dlftt_mutex_acquire 1 ⟨0, false⟩).2.1).1 = true ∧
      (H5TS_dlftt_mutex_release (H5TS_dlftt_mutex_acquire 1 ⟨0, false⟩).2.1).2.2 = [] ∧
      (H5TS_dlftt_mutex_release
        (H5TS_dlftt_mutex_acquire 1 ⟨0, false⟩).2.1).2.1.locked = (⟨0, false⟩ :
          H5TS_dlftt_mutex_t).locked :=
  dlftt_mutex_pair_noop 1 ⟨0, false⟩ (by decide)

/-! ### Free-list arenas (H5FL)

H5FL__malloc and H5FL_garbage_coll are modelled as trace-producing
functions over oracles for the system allocator outcomes (Bool per
attempt) and the per-class GC outcomes.  The GC order arr, blk, reg, fac
and the stop-at-first-failure behaviour follow H5FL_garbage_coll. -/

inductive FLKind
  | arr
  | blk
  | reg
  | fac
deriving DecidableEq, Repr

inductive FLEv
  | sysAlloc (ok : Bool)
  | gcPass (c : FLKind) (ok : Bool)
deriving DecidableEq, Repr

/-- H5FL_garbage_coll: garbage collect the arr, blk, reg and fac free
lists in that order, stopping at (and propagating) the first failure.
The oracle g gives the outcome of each per-class pass. -/
def H5FL_garbage_coll (g : FLKind → Bool) : Bool × List FLEv :=
  if g FLKind.arr = false then (false, [FLEv.gcPass FLKind.arr false])
  else if g FLKind.blk = false then
    (false, [FLEv.gcPass FLKind.arr true, FLEv.gcPass FLKind.blk false])
  else if g FLKind.reg = false then
    (false, [FLEv.gcPass FLKind.arr true, FLEv.gcPass FLKind.blk true,
      FLEv.gcPass FLKind.reg false])
  else if g FLKind.fac = false then
    (false, [FLEv.gcPass FLKind.arr true, FLEv.gcPass FLKind.blk true,
      FLEv.gcPass FLKind.reg true, FLEv.gcPass FLKind.fac false])
  else
    (true, [FLEv.gcPass FLKind.arr true, FLEv.gcPass FLKind.blk true,
      FLEv.gcPass FLKind.reg true, FLEv.gcPass FLKind.fac true])

/-- H5FL__malloc: attempt the system allocation; on failure run
H5FL_garbage_coll (propagating its error) and retry the allocation once.
a1 and a2 are the outcomes of the first and second system allocation
attempts, g the per-class GC outcomes.  Returns success together with
the event trace. -/
def H5FL__malloc (a1 : Bool) (g : FLKind → Bool) (a2 : Bool) :
    Bool × List FLEv :=
  if a1 then (true, [FLEv.sysAlloc true])
  else
    let gr := H5FL_garbage_coll g
    if gr.1 = false then (false, FLEv.sysAlloc false :: gr.2)
    else (a2, FLEv.sysAlloc false :: gr.2 ++ [FLEv.sysAlloc a2])

def isSysAlloc : FLEv → Bool
  | FLEv.sysAlloc _ => true
  | FLEv.gcPass _ _ => false

/-- Claim C6: when the first system allocation fails, H5FL__malloc runs
one global garbage-collect-all pass and retries the system allocation
exactly once (two allocation attempts total); when the GC pass fails no
retry happens (one attempt) and the failure is propagated; the overall
outcome succeeds only if the GC pass completed and the retry succeeded;
and when all four per-class passes succeed the full trace is the failed
attempt, the four class passes in order arr, blk, reg, fac, and the
single retry. -/
theorem fl_malloc_gc_retry (g : FLKind → Bool) (a2 : Bool) :
    ((H5FL__malloc false g a2).2.countP (fun e => isSysAlloc e) =
        if (H5FL_garbage_coll g).1 then 2 else 1) ∧
      (H5FL__malloc false g a2).1 = ((H5FL_garbage_coll g).1 && a2) ∧
      ((∀ c, g c = true) →
        H5FL__malloc false g a2 =
          (a2, [FLEv.sysAlloc false, FLEv.gcPass FLKind.arr true,
            FLEv.gcPass FLKind.blk true, FLEv.gcPass FLKind.reg true,
            FLEv.gcPass FLKind.fac true, FLEv.sysAlloc a2])) := by
  refine ⟨?_, ?_, ?_⟩
  · unfold H5FL__malloc H5FL_garbage_coll
    cases harr : g FLKind.arr <;> cases hblk : g FLKind.blk <;>
      cases hreg : g FLKind.reg <;> cases hfac : g FLKind.fac <;>
      simp [harr, hblk, hreg, hfac, List.countP, List.countP.go, isSysAlloc]
  · unfold H5FL__malloc H5FL_garbage_coll
    cases harr : g FLKind.arr <;> cases hblk : g FLKind.blk <;>
      cases hreg : g FLKind.reg <;> cases hfac : g FLKind.fac <;>
      simp [harr, hblk, hreg, hfac]
  · intro hall
    unfold H5FL__malloc H5FL_garbage_coll
    simp [hall FLKind.arr, hall FLKind.blk, hall FLKind.reg, hall FLKind.fac]

/-- Witness for C6: all GC passes succeed, the retry fails, so the
allocation reports failure after exactly one GC-all pass and one retry. -/
theorem fl_malloc_gc_retry_witness :
    H5FL__malloc false (fun _ => true) false =
      (false, [FLEv.sysAlloc false, FLEv.gcPass FLKind.arr true,
        FLEv.gcPass FLKind.blk true, FLEv.gcPass FLKind.reg true,
        FLEv.gcPass FLKind.fac true, FLEv.sysAlloc false]) :=
  (fl_malloc_gc_retry (fun _ => true) false).2.2 (fun _ => rfl)

/-! ### H5FL_reg_free and the garbage-collection caps

One regular free-list class: a list of heads (H5FL_reg_gc_head chain)
and the global "memory on free lists" gauge (H5FL_reg_gc_head.mem_freed).
Blocks on a head free list are summarised by the onlist counter; linking
a freed block onto the head list is onlist + 1. -/

structure H5FL_reg_head_t where
  size : Nat
  allocated : Nat
  onlist : Nat
deriving DecidableEq, Repr

structure H5FL_reg_class_t where
  heads : List H5FL_reg_head_t
  mem_freed : Nat
deriving DecidableEq, Repr

inductive RegEv
  | gcList (i : Nat)
  | gcClass
deriving DecidableEq, Repr

/-- H5FL__reg_gc_list on one head: free every node on the free list,
subtract onlist from allocated, clear the list. -/
def H5FL__reg_gc_list (h : H5FL_reg_head_t) : H5FL_reg_head_t :=
  { h with allocated := h.allocated - h.onlist, onlist := 0 }

/-- Amount the gauge drops by when a head is garbage collected
(onlist * size, captured before the collection). -/
def regGcFreed (h : H5FL_reg_head_t) : Nat := h.onlist * h.size

/-- H5FL__reg_gc: walk every head of the class, garbage collecting each
list; the gauge drops by the freed amount of every head. -/
def H5FL__reg_gc (s : H5FL_reg_class_t) : H5FL_reg_class_t :=
  { heads := s.heads.map H5FL__reg_gc_list,
    mem_freed := s.mem_freed - (s.heads.map regGcFreed).sum }

/-- H5FL_reg_free of one block to head i: link the block onto the head
free list (onlist + 1, capturing that value), add size to the global
gauge; then, if the captured onlist times size exceeds the per-list cap,
garbage collect this head; then, if the (possibly reduced) global gauge
exceeds the global cap, garbage collect the whole class.  Both checks
are sequential if statements in the source, not an if / else chain. -/
def H5FL_reg_free (lstLim glbLim : Nat) (s : H5FL_reg_class_t) (i : Nat) :
    H5FL_reg_class_t × List RegEv :=
  match s.heads.get? i with
  | none => (s, [])
  | some h =>
    let h1 := { h with onlist := h.onlist + 1 }
    let onlist := h1.onlist
    let s1 : H5FL_reg_class_t :=
      { heads := s.heads.set i h1, mem_freed := s.mem_freed + h.size }
    let step2 : H5FL_reg_class_t × List RegEv :=
      if lstLim < onlist * h1.size then
        ({ heads := s1.heads.set i (H5FL__reg_gc_list h1),
           mem_freed := s1.mem_freed - regGcFreed h1 }, [RegEv.gcList i])
      else (s1, [])
    if glbLim < step2.1.mem_freed then
      (H5FL__reg_gc step2.1, step2.2 ++ [RegEv.gcClass])
    else step2

/-- Counterexample to claim C7: with per-list cap 5, global cap 50, two
heads (head 0 empty, head 1 holding 10 blocks of size 10 so the gauge is
100), freeing one block of size 10 to head 0 exceeds the per-list cap,
so gc_list(head 0) runs, and afterwards the gauge (still 100) exceeds
the global cap, so the class-wide GC runs as well.  The claim says the
global-cap check (and hence the class GC) only happens when the per-list
cap was not exceeded, so under the claim the trace could never contain
both events. -/
theorem reg_free_both_gcs_counterexample :
    (H5FL_reg_free 5 50 ⟨[⟨10, 1, 0⟩, ⟨10, 10, 10⟩], 100⟩ 0).2 =
      [RegEv.gcList 0, RegEv.gcClass] := by decide

/-- Claim C7 (amended): freeing a block to head i links it onto the head
free list (onlist becomes onlist + 1) and raises the class gauge by the
block size; then, if the new per-list amount exceeds the per-list cap,
gc_list on that head is invoked; then, independently of whether the
per-list GC ran, if the class gauge as updated by any such per-list GC
exceeds the global cap, the class-wide GC is invoked.  The event trace
is exactly the concatenation of those two independent decisions. -/
theorem reg_free_gc_policy (lstLim glbLim : Nat) (s : H5FL_reg_class_t)
    (i : Nat) (h : H5FL_reg_head_t) (hget : s.heads.get? i = some h) :
    ((H5FL_reg_free lstLim glbLim s i).2 =
        (if lstLim < (h.onlist + 1) * h.size then [RegEv.gcList i] else []) ++
          (if glbLim <
              (if lstLim < (h.onlist + 1) * h.size then
                s.mem_freed + h.size - (h.onlist + 1) * h.size
              else s.mem_freed + h.size) then
            [RegEv.gcClass]
          else [])) ∧
      (¬ lstLim < (h.onlist + 1) * h.size →
        ¬ glbLim < s.mem_freed + h.size →
        (H5FL_reg_free lstLim glbLim s i).1 =
          { heads := s.heads.set i { h with onlist := h.onlist + 1 },
            mem_freed := s.mem_freed + h.size }) := by
  constructor
  · unfold H5FL_reg_free
    rw [hget]
    by_cases h1 : lstLim < (h.onlist + 1) * h.size <;>
      simp only [h1, if_true, if_false, regGcFreed] <;>
      split <;> simp_all
  · intro h1 h2
    unfold H5FL_reg_free
    rw [hget]
    simp only [if_neg h1]
    simp only [if_neg h2]

/-- Witness for C7 (amended): no cap exceeded, the block just goes onto
the list and the gauge grows. -/
theorem reg_free_gc_policy_witness :
    ((H5FL_reg_free 100 1000 ⟨[⟨10, 1, 0⟩], 0⟩ 0).2 =
        (if (100 : Nat) < (0 + 1) * 10 then [RegEv.gcList 0] else []) ++
          (if (1000 : Nat) <
              (if (100 : Nat) < (0 + 1) * 10 then 0 + 10 - (0 + 1) * 10
              else 0 + 10) then
            [RegEv.gcClass]
          else [])) ∧
      (¬ (100 : Nat) < (0 + 1) * 10 → ¬ (1000 : Nat) < 0 + 10 →
        (H5FL_reg_free 100 1000 ⟨[⟨10, 1, 0⟩], 0⟩ 0).1 =
          { heads := [⟨10, 1, 0⟩].set 0 { size := 10, allocated := 1, onlist := 0 + 1 },
            mem_freed := 0 + 10 }) :=
  reg_free_gc_policy 100 1000 ⟨[⟨10, 1, 0⟩], 0⟩ 0 ⟨10, 1, 0⟩ (by decide)

/-! ### H5FL_set_free_list_limits -/

def uintMax : Nat := 2 ^ 32 - 1

/-- C conversion of an int value to size_t (64-bit unsigned). -/
def sizeTOfInt (v : Int) : Nat := (v % (2 : Int) ^ 64).toNat

structure FLLimits where
  reg_glb_mem_lim : Nat
  reg_lst_mem_lim : Nat
  arr_glb_mem_lim : Nat
  arr_lst_mem_lim : Nat
  blk_glb_mem_lim : Nat
  blk_lst_mem_lim : Nat
  fac_glb_mem_lim : Nat
  fac_lst_mem_lim : Nat
deriving DecidableEq, Repr

/-- H5FL_set_free_list_limits: each argument equal to -1 stores UINT_MAX
as the corresponding cap, any other value is stored via the C cast to
size_t. -/
def H5FL_set_free_list_limits (rg rl ag al bg bl fg fl : Int) : FLLimits :=
  { reg_glb_mem_lim := if rg = -1 then uintMax else sizeTOfInt rg,
    reg_lst_mem_lim := if rl = -1 then uintMax else sizeTOfInt rl,
    arr_glb_mem_lim := if ag = -1 then uintMax else sizeTOfInt ag,
    arr_lst_mem_lim := if al = -1 then uintMax else sizeTOfInt al,
    blk_glb_mem_lim := if bg = -1 then uintMax else sizeTOfInt bg,
    blk_lst_mem_lim := if bl = -1 then uintMax else sizeTOfInt bl,
    fac_glb_mem_lim := if fg = -1 then uintMax else sizeTOfInt fg,
    fac_lst_mem_lim := if fl = -1 then uintMax else sizeTOfInt fl }

/-- Claim C8: in the eight-argument cap entry point, every argument equal
to -1 is stored as the maximum representable unsigned value (UINT_MAX,
2 ^ 32 - 1) for its cap, and every other argument value is stored as the
corresponding cap through the C size_t conversion.  Stated here for the
regular-class pair; the function is symmetric in the remaining six. -/
theorem set_free_list_limits_spec (rg rl ag al bg bl fg fl : Int) :
    (rg = -1 →
      (H5FL_set_free_list_limits rg rl ag al bg bl fg fl).reg_glb_mem_lim =
        2 ^ 32 - 1) ∧
    (rg ≠ -1 →
      (H5FL_set_free_list_limits rg rl ag al bg bl fg fl).reg_glb_mem_lim =
        sizeTOfInt rg) ∧
    (rl = -1 →
      (H5FL_set_free_list_limits rg rl ag al bg bl fg fl).reg_lst_mem_lim =
        2 ^ 32 - 1) ∧
    (rl ≠ -1 →
      (H5FL_set_free_list_limits rg rl ag al bg bl fg fl).reg_lst_mem_lim =
        sizeTOfInt rl) ∧
    (ag = -1 →
      (H5FL_set_free_list_limits rg rl ag al bg bl fg fl).arr_glb_mem_lim =
        2 ^ 32 - 1) ∧
    (ag ≠ -1 →
      (H5FL_set_free_list_limits rg rl ag al bg bl fg fl).arr_glb_mem_lim =
        sizeTOfInt ag) ∧
    (al = -1 →
      (H5FL_set_free_list_limits rg rl ag al bg bl fg fl).arr_lst_mem_lim =
        2 ^ 32 - 1) ∧
    (al ≠ -1 →
      (H5FL_set_free_list_limits rg rl ag al bg bl fg fl).arr_lst_mem_lim =
        sizeTOfInt al) ∧
    (bg = -1 →
      (H5FL_set_free_list_limits rg rl ag al bg bl fg fl).blk_glb_mem_lim =
        2 ^ 32 - 1) ∧
    (bg ≠ -1 →
      (H5FL_set_free_list_limits rg rl ag al bg bl fg fl).blk_glb_mem_lim =
        sizeTOfInt bg) ∧
    (bl = -1 →
      (H5FL_set_free_list_limits rg rl ag al bg bl fg fl).blk_lst_mem_lim =
        2 ^ 32 - 1) ∧
    (bl ≠ -1 →
      (H5FL_set_free_list_limits rg rl ag al bg bl fg fl).blk_lst_mem_lim =
        sizeTOfInt bl) ∧
    (fg = -1 →
      (H5FL_set_free_list_limits rg rl ag al bg bl fg fl).fac_glb_mem_lim =
        2 ^ 32 - 1) ∧
    (fg ≠ -1 →
      (H5FL_set_free_list_limits rg rl ag al bg bl fg fl).fac_glb_mem_lim =
        sizeTOfInt fg) ∧
    (fl = -1 →
      (H5FL_set_free_list_limits rg rl ag al bg bl fg fl).fac_lst_mem_lim =
        2 ^ 32 - 1) ∧
    (fl ≠ -1 →
      (H5FL_set_free_list_limits rg rl ag al bg bl fg fl).fac_lst_mem_lim =
        sizeTOfInt fl) := by
  unfold H5FL_set_free_list_limits uintMax
  refine ⟨?_, ?_, ?_, ?_, ?_, ?_, ?_, ?_, ?_, ?_, ?_, ?_, ?_, ?_, ?_, ?_⟩ <;>
    intro h <;> simp [h]

/-- Witness for C8: -1 arguments become UINT_MAX, 7 is stored as 7. -/
theorem set_free_list_limits_spec_witness :
    (H5FL_set_free_list_limits (-1) 7 (-1) (-1) (-1) (-1) (-1) (-1)).reg_glb_mem_lim =
        2 ^ 32 - 1 ∧
      (H5FL_set_free_list_limits (-1) 7 (-1) (-1) (-1) (-1) (-1) (-1)).reg_lst_mem_lim =
        sizeTOfInt 7 :=
  ⟨(set_free_list_limits_spec (-1) 7 (-1) (-1) (-1) (-1) (-1) (-1)).1 rfl,
    (set_free_list_limits_spec (-1) 7 (-1) (-1) (-1) (-1) (-1) (-1)).2.2.2.1 (by decide)⟩

/-! ### POSIX shim read (H5FD__posix_common_read)

The pread syscall outcomes are supplied by an oracle list: one entry per
invocation of the syscall.  intr is a -1 return with errno EINTR, err is
any other failing return, bytes bs is a successful return delivering the
byte list bs (bytes [] is the zero-return end-of-file case).  The
H5_POSIX_MAX_IO_BYTES cap only bounds how many bytes each single syscall
is asked for; it does not alter the accumulation logic modelled here. -/

inductive PReadRes
  | intr
  | err
  | bytes (bs : List Nat)
deriving DecidableEq, Repr

/-- The read loop of H5FD__posix_common_read: while bytes remain, issue
the syscall; retry the same request transparently on EINTR; fail on any
other error; on a zero-byte result (end of file) fill the remainder of
the request with zeros and succeed; otherwise accumulate the bytes read
and continue with the remaining range.  Returns the bytes placed in the
caller buffer, or none on failure.  The none result for an exhausted
oracle is a model artifact (a real file always answers). -/
def posixReadLoop : List PReadRes → Nat → Option (List Nat)
  | _, 0 => some []
  | [], _ + 1 => none
  | PReadRes.intr :: rest, n + 1 => posixReadLoop rest (n + 1)
  | PReadRes.err :: _, _ + 1 => none
  | PReadRes.bytes bs :: rest, n + 1 =>
    if bs.length = 0 then some (List.replicate (n + 1) 0)
    else (posixReadLoop rest (n + 1 - bs.length)).map (fun tail => bs ++ tail)

/-- H5FD__posix_common_read: reject an undefined address or an
overflowing (addr, size) region, then run the read loop. -/
def H5FD__posix_common_read (addr size : Nat) (oracle : List PReadRes) :
    Option (List Nat) :=
  if addr = haddrUndef then none
  else if H5FD_POSIX_REGION_OVERFLOW addr size then none
  else posixReadLoop oracle size

/-- Claim C9: for a read with a defined address and non-overflowing
region, an interrupted syscall is retried transparently (the result is
the same as if the EINTR had not happened); a partial read of bs is
followed by a retry against the remaining byte range, the partial bytes
being kept; and a zero-byte syscall return zero-fills the entire
remaining request and returns success. -/
theorem posix_read_retry_zero_fill (addr size : Nat) (oracle rest : List PReadRes)
    (bs : List Nat) (haddr : addr ≠ haddrUndef)
    (hov : H5FD_POSIX_REGION_OVERFLOW addr size = false) :
    (H5FD__posix_common_read addr size (PReadRes.intr :: oracle) =
        H5FD__posix_common_read addr size oracle) ∧
      (H5FD__posix_common_read addr size (PReadRes.bytes [] :: oracle) =
        some (List.replicate size 0)) ∧
      (0 < bs.length → bs.length ≤ size →
        H5FD__posix_common_read addr size (PReadRes.bytes bs :: rest) =
          (posixReadLoop rest (size - bs.length)).map (fun tail => bs ++ tail)) := by
  have hloop0 : ∀ l : List PReadRes, posixReadLoop l 0 = some [] := by
    intro l
    cases l with
    | nil => rfl
    | cons x xs => cases x <;> rfl
  refine ⟨?_, ?_, ?_⟩
  · unfold H5FD__posix_common_read
    rw [if_neg haddr, if_neg (by simp [hov]), if_neg haddr, if_neg (by simp [hov])]
    cases size with
    | zero => rw [hloop0, hloop0]
    | succ n => rfl
  · unfold H5FD__posix_common_read
    rw [if_neg haddr, if_neg (by simp [hov])]
    cases size with
    | zero => rw [hloop0]; rfl
    | succ n => simp [posixReadLoop]
  · intro hpos hle
    unfold H5FD__posix_common_read
    rw [if_neg haddr, if_neg (by simp [hov])]
    cases size with
    | zero => omega
    | succ n =>
      simp only [posixReadLoop]
      rw [if_neg (by omega)]

/-- Witness for C9 at address 0, size 5, with a partial two-byte read:
the remaining three bytes are requested again. -/
theorem posix_read_retry_zero_fill_witness :
    (H5FD__posix_common_read 0 5 (PReadRes.intr :: [PReadRes.bytes []]) =
        H5FD__posix_common_read 0 5 [PReadRes.bytes []]) ∧
      (H5FD__posix_common_read 0 5 (PReadRes.bytes [] :: [PReadRes.bytes []]) =
        some (List.replicate 5 0)) ∧
      (0 < [7, 8].length → [7, 8].length ≤ 5 →
        H5FD__posix_common_read 0 5 (PReadRes.bytes [7, 8] :: [PReadRes.bytes []]) =
          (posixReadLoop [PReadRes.bytes []] (5 - [7, 8].length)).map
            (fun tail => [7, 8] ++ tail)) :=
  posix_read_retry_zero_fill 0 5 [PReadRes.bytes []] [PReadRes.bytes []]
    [7, 8] (by decide) (by decide)

/-! ### Dirty-region index and the core (in-memory) file driver

A dirty region is a closed byte interval (start, endb) with endb
inclusive.  The H5SL skip list keyed on region start is modelled from
the spec (its source is not part of this repository) as a list sorted by
start: search finds the entry with the given key, less returns the entry
with the greatest key strictly below the argument, remove deletes by
key, insert places the entry at its sorted position. -/

abbrev Region := Nat × Nat

/-- Modelled from the spec: H5SL_less, the greatest entry with key
strictly less than the argument (on a sorted list, the last such). -/
def H5SL_less (l : List Region) (key : Nat) : Option Region :=
  (l.filter fun r => r.1 < key).getLast?

/-- Modelled from the spec: H5SL_search by exact key. -/
def H5SL_search (l : List Region) (key : Nat) : Option Region :=
  l.find? fun r => r.1 == key

/-- Modelled from the spec: H5SL_remove by key (keys are unique). -/
def H5SL_remove (l : List Region) (key : Nat) : List Region :=
  l.filter fun r => r.1 != key

/-- Modelled from the spec: H5SL_insert keyed on region start. -/
def H5SL_insert : List Region → Region → List Region
  | [], it => [it]
  | r :: rest, it =>
    if it.1 < r.1 then it :: r :: rest else r :: H5SL_insert rest it

theorem H5SL_less_mem_lt {l : List Region} {key : Nat} {r : Region}
    (h : H5SL_less l key = some r) : r ∈ l ∧ r.1 < key := by
  have hmem : r ∈ l.filter fun r => decide (r.1 < key) := by
    obtain ⟨hne, heq⟩ := List.mem_getLast?_eq_getLast (Option.mem_def.mpr h)
    exact heq ▸ List.getLast_mem hne
  have := List.mem_filter.mp hmem
  exact ⟨this.1, of_decide_eq_true this.2⟩

theorem H5SL_less_lt {l : List Region} {key : Nat} {r : Region}
    (h : H5SL_less l key = some r) : r.1 < key :=
  (H5SL_less_mem_lt h).2

/-- The node-removal loop of H5FD__core_add_dirty_region: while the
current node starts above the (possibly merged) start, look up its
predecessor, delete the node, and continue from the predecessor. -/
def removeLoop (l : List Region) (a : Region) (start : Nat) : List Region :=
  if a.1 > start then
    let less := H5SL_less l (a.1 - 1)
    let l1 := H5SL_remove l a.1
    match h : less with
    | some p => removeLoop l1 p start
    | none => l1
  else l
termination_by a.1
decreasing_by
  have := H5SL_less_lt h
  omega

def removeLoopO (l : List Region) (a : Option Region) (start : Nat) :
    List Region :=
  match a with
  | none => l
  | some a => removeLoop l a start

/-- Start-rounding of H5FD__core_add_dirty_region: round down to a page
boundary when not already on one. -/
def roundStart (psize s0 : Nat) : Nat :=
  if s0 % psize ≠ 0 then (s0 / psize) * psize else s0

/-- End-rounding of H5FD__core_add_dirty_region: when the end is not at
one less than a page boundary, round it up to one less than the next
page boundary, and clamp to eof - 1 when that exceeds eof.  The C
comparison is end > eof, so a rounded end exactly equal to eof is kept. -/
def roundEnd (psize eof e0 : Nat) : Nat :=
  if e0 % psize ≠ psize - 1 then
    if ((e0 / psize) + 1) * psize - 1 > eof then eof - 1
    else ((e0 / psize) + 1) * psize - 1
  else e0

/-- Outcome of H5FD__core_add_dirty_region: the final list, plus the
intermediate state the index has when the trailing H5SL_insert is the
step that fails (preList), and whether that insert call is reached. -/
structure AddOut where
  insertCalled : Bool
  preList : List Region
  result : List Region
deriving DecidableEq, Repr

/-- H5FD__core_add_dirty_region (bstore_page_size psize, current file
eof, dirty index l, raw write range start0 .. end0 inclusive): round the
range to page boundaries (clamping at eof), find the nodes before the
insertion point and before the end of the new region, absorb a
partially-overlapped after-node by extending the new end, merge into the
before-node when it touches or overlaps the new start, delete the nodes
that the new region shadows, and finally either update the merged node
in place or insert a new node. -/
def H5FD__core_add_dirty_region (psize eof : Nat) (l : List Region)
    (start0 end0 : Nat) : AddOut :=
  let start := roundStart psize start0
  let end1 := roundEnd psize eof end0
  let b_item := H5SL_less l (start + 1)
  let a_item := H5SL_less l (end1 + 2)
  let end2 :=
    match a_item with
    | some a => if start < a.1 ∧ end1 < a.2 then a.2 else end1
    | none => end1
  let sc : Bool × Nat :=
    match b_item with
    | some b => if start ≤ b.2 + 1 then (false, b.1) else (true, start)
    | none => (true, start)
  let create_new_node := sc.1
  let startF := sc.2
  let l1 := removeLoopO l a_item startF
  if create_new_node then
    match H5SL_search l1 startF with
    | none =>
      { insertCalled := true, preList := l1,
        result := H5SL_insert l1 (startF, end2) }
    | some _ =>
      { insertCalled := false, preList := l1,
        result := l1.map fun r =>
          if r.1 = startF then (r.1, if r.2 < end2 then end2 else r.2) else r }
  else
    { insertCalled := false, preList := l1,
      result := l1.map fun r =>
        if r.1 = startF then (r.1, if r.2 < end2 then end2 else r.2) else r }

/-- The state of an open core (in-memory) file: the memory buffer as a
byte list (its length is the allocation size), the tracked eof, the
growth increment, the dirty-region page size, the optional dirty index
(some when write tracking is active) and the dirty flag. -/
structure H5FD_core_t where
  mem : List Nat
  eof : Nat
  increment : Nat
  bstore_page_size : Nat
  dirty_list : Option (List Region)
  dirty : Bool
deriving DecidableEq, Repr

/-- The open-existing-file path of H5FD__core_open, without a file
image: the backing file is opened and stat gives eof; the buffer is
allocated with exactly size = eof bytes and filled from the backing
file; the increment comes from the access properties, defaulting to
H5FD_CORE_INCREMENT = 8192 when zero; the dirty index is created empty
exactly when the backing store is used, write tracking was requested,
the file is writable, and the page size is nonzero. -/
def H5FD__core_open_existing (backing : List Nat) (fa_increment psize : Nat)
    (backing_store write_tracking rdwr : Bool) : H5FD_core_t :=
  { mem := backing,
    eof := backing.length,
    increment := if fa_increment > 0 then fa_increment else 8192,
    bstore_page_size := psize,
    dirty_list :=
      if backing_store && write_tracking && rdwr && (psize != 0) then some []
      else none,
    dirty := false }

/-- memcpy(file->mem + addr, buf, size): overwrite size bytes of mem at
offset addr (callers guarantee addr + size is within mem). -/
def memWrite (mem : List Nat) (addr : Nat) (buf : List Nat) : List Nat :=
  mem.take addr ++ buf ++ mem.drop (addr + buf.length)

/-- The new eof computed by H5FD__core_write when a write extends the
file: increment * ((addr + size) / increment), plus one more increment
when the division was not exact. -/
def newEofFor (increment a : Nat) : Nat :=
  increment * (a / increment) + (if a % increment ≠ 0 then increment else 0)

/-- The buffer-extension step of H5FD__core_write: when the write ends
past eof, reallocate the buffer to newEofFor bytes (the realloc keeps
the old content; the new tail starting at the old eof is zeroed by the
memset, which covers exactly the added bytes since the buffer length
equals eof) and record the new eof. -/
def coreExtend (f : H5FD_core_t) (addr size : Nat) : H5FD_core_t :=
  if addr + size > f.eof then
    let new_eof := newEofFor f.increment (addr + size)
    { f with mem := f.mem ++ List.replicate (new_eof - f.mem.length) 0,
             eof := new_eof }
  else f

/-- H5FD__core_write: check the region for overflow; when the write ends
past eof, reallocate the buffer to the next increment multiple, zero the
extension and move eof; when tracking, insert the written range into the
dirty index (the insertOk flag says whether the H5SL_insert call, if
reached, succeeds; on failure the write stops with the state at that
point); finally copy the caller bytes into the buffer and set the dirty
flag.  The error value carries the file state at the failure point.
Failure of the extension realloc itself (which in C returns before
moving eof) is not modelled. -/
def H5FD__core_write (insertOk : Bool) (f : H5FD_core_t) (addr : Nat)
    (buf : List Nat) : Except H5FD_core_t H5FD_core_t :=
  let size := buf.length
  if H5FD_POSIX_REGION_OVERFLOW addr size then Except.error f
  else
    let f := coreExtend f addr size
    match f.dirty_list with
    | some dl =>
      let out := H5FD__core_add_dirty_region f.bstore_page_size f.eof dl addr
        (addr + size - 1)
      if insertOk || !out.insertCalled then
        Except.ok { f with dirty_list := some out.result,
                           mem := memWrite f.mem addr buf, dirty := true }
      else
        Except.error { f with dirty_list := some out.preList }
    | none =>
      Except.ok { f with mem := memWrite f.mem addr buf, dirty := true }

/-- H5FD__core_read: check the address and region, copy the bytes below
eof out of the buffer and zero-fill the part of the request above eof. -/
def H5FD__core_read (f : H5FD_core_t) (addr size : Nat) :
    Option (List Nat) :=
  if addr = haddrUndef then none
  else if H5FD_POSIX_REGION_OVERFLOW addr size then none
  else
    some
      (if addr < f.eof then
        let nbytes := min size (f.eof - addr)
        ((f.mem.drop addr).take nbytes) ++ List.replicate (size - nbytes) 0
      else List.replicate size 0)

/-- Run a sequence of writes (with every dirty-index insert succeeding),
collecting for each write the page-rounded clamped region computed from
the eof in effect when its dirty region was recorded (the eof after that
write extended the file). -/
def runWrites (f : H5FD_core_t) :
    List (Nat × List Nat) → Option (H5FD_core_t × List Region)
  | [] => some (f, [])
  | (addr, buf) :: rest =>
    match H5FD__core_write true f addr buf with
    | Except.ok f1 =>
      (runWrites f1 rest).map fun p =>
        (p.1, (roundStart f.bstore_page_size addr,
          roundEnd f.bstore_page_size f1.eof (addr + buf.length - 1)) :: p.2)
    | Except.error _ => none

/-! ### Support lemmas about the core write path -/

theorem memWrite_length {mem buf : List Nat} {addr : Nat}
    (h : addr + buf.length ≤ mem.length) :
    (memWrite mem addr buf).length = mem.length := by
  unfold memWrite
  simp only [List.length_append, List.length_take, List.length_drop]
  omega

theorem newEofFor_ge {inc a : Nat} (h : 0 < inc) : a ≤ newEofFor inc a := by
  unfold newEofFor
  have h1 := Nat.div_add_mod a inc
  have h2 := Nat.mod_lt a h
  split <;> omega

theorem newEofFor_mod (inc a : Nat) : newEofFor inc a % inc = 0 := by
  unfold newEofFor
  split
  · simp [Nat.add_mul_mod_self_left, Nat.mul_mod_right]
  · simp [Nat.mul_mod_right]

theorem newEofFor_lt {inc a : Nat} (h : 0 < inc) : newEofFor inc a < a + inc := by
  unfold newEofFor
  have h1 := Nat.div_add_mod a inc
  have h2 := Nat.mod_lt a h
  split <;> omega

theorem coreExtend_eof_ge (f : H5FD_core_t) (addr size : Nat)
    (hinc : 0 < f.increment) : addr + size ≤ (coreExtend f addr size).eof := by
  unfold coreExtend
  by_cases hx : addr + size > f.eof
  · simp only [hx, if_true]
    exact newEofFor_ge hinc
  · simp only [hx, if_false]
    omega

theorem coreExtend_eof_ge_eof (f : H5FD_core_t) (addr size : Nat)
    (hinc : 0 < f.increment) : f.eof ≤ (coreExtend f addr size).eof := by
  unfold coreExtend
  by_cases hx : addr + size > f.eof
  · simp only [hx, if_true]
    have := newEofFor_ge (a := addr + size) hinc
    omega
  · simp [hx]

theorem coreExtend_meminv (f : H5FD_core_t) (addr size : Nat)
    (hinc : 0 < f.increment) (hmem : f.mem.length = f.eof) :
    (coreExtend f addr size).mem.length = (coreExtend f addr size).eof := by
  unfold coreExtend
  by_cases hx : addr + size > f.eof
  · simp only [hx, if_true, List.length_append, List.length_replicate]
    have := newEofFor_ge (a := addr + size) hinc
    omega
  · simp [hx, hmem]

theorem coreExtend_mem (f : H5FD_core_t) (addr size : Nat)
    (hmem : f.mem.length = f.eof) :
    (coreExtend f addr size).mem =
      f.mem ++ List.replicate ((coreExtend f addr size).eof - f.mem.length) 0 := by
  unfold coreExtend
  by_cases hx : addr + size > f.eof <;> simp [hx, hmem]

theorem coreExtend_fields (f : H5FD_core_t) (addr size : Nat) :
    (coreExtend f addr size).increment = f.increment ∧
      (coreExtend f addr size).bstore_page_size = f.bstore_page_size ∧
      (coreExtend f addr size).dirty_list = f.dirty_list ∧
      (coreExtend f addr size).dirty = f.dirty := by
  unfold coreExtend
  by_cases hx : addr + size > f.eof <;> simp [hx]

/-- Shape of a successful H5FD__core_write: the overflow check passed,
the result is the extended state with the caller bytes copied in, the
dirty flag set, and (when tracking) the dirty index updated by
H5FD__core_add_dirty_region evaluated at the post-extension eof. -/
theorem core_write_ok_shape {io : Bool} {f f' : H5FD_core_t} {addr : Nat}
    {buf : List Nat} (h : H5FD__core_write io f addr buf = Except.ok f') :
    H5FD_POSIX_REGION_OVERFLOW addr buf.length = false ∧
      f'.mem = memWrite (coreExtend f addr buf.length).mem addr buf ∧
      f'.eof = (coreExtend f addr buf.length).eof ∧
      f'.increment = f.increment ∧
      f'.bstore_page_size = f.bstore_page_size ∧
      f'.dirty = true ∧
      (∀ dl, f.dirty_list = some dl →
        f'.dirty_list = some (H5FD__core_add_dirty_region f.bstore_page_size
          (coreExtend f addr buf.length).eof dl addr (addr + buf.length - 1)).result) ∧
      (f.dirty_list = none → f'.dirty_list = none) := by
  unfold H5FD__core_write at h
  obtain ⟨hext1, hext2, hext3, _⟩ := coreExtend_fields f addr buf.length
  by_cases hov : H5FD_POSIX_REGION_OVERFLOW addr buf.length
  · rw [if_pos hov] at h
    exact absurd h (by simp)
  · rw [if_neg hov] at h
    simp only [Bool.not_eq_true] at hov
    refine ⟨hov, ?_⟩
    simp only at h
    split at h
    · rename_i dl hdl
      split at h
      · simp only [Except.ok.injEq] at h
        subst h
        refine ⟨rfl, rfl, hext1, hext2, rfl, ?_, ?_⟩
        · intro dl0 hfdl
          rw [hext3, hfdl] at hdl
          simp only [Option.some.injEq] at hdl
          subst hdl
          rw [hext2]
        · intro hnone
          rw [hext3, hnone] at hdl
          exact absurd hdl (by simp)
      · exact absurd h (by simp)
    · rename_i hdl
      simp only [Except.ok.injEq] at h
      subst h
      refine ⟨rfl, rfl, hext1, hext2, rfl, ?_, ?_⟩
      · intro dl hfdl
        rw [hext3, hfdl] at hdl
        exact absurd hdl (by simp)
      · intro _
        exact hdl

/-- Shape of a failed H5FD__core_write: either the overflow check failed
(state unchanged) or the dirty-region insert failed on the extended
state; in both cases the error state keeps the original stored bytes and
the original dirty flag, only the buffer extension and eof update having
happened. -/
theorem core_write_error_shape {io : Bool} {f e : H5FD_core_t} {addr : Nat}
    {buf : List Nat} (hinc : 0 < f.increment)
    (h : H5FD__core_write io f addr buf = Except.error e) :
    e.dirty = f.dirty ∧
      (f.mem.length = f.eof →
        e.mem = f.mem ++ List.replicate (e.eof - f.mem.length) 0) ∧
      f.eof ≤ e.eof := by
  unfold H5FD__core_write at h
  by_cases hov : H5FD_POSIX_REGION_OVERFLOW addr buf.length
  · rw [if_pos hov] at h
    simp only [Except.error.injEq] at h
    subst h
    refine ⟨rfl, ?_, le_refl _⟩
    intro hm
    rw [← hm]
    simp
  · rw [if_neg hov] at h
    obtain ⟨hext1, hext2, hext3, hext4⟩ := coreExtend_fields f addr buf.length
    simp only at h
    split at h
    · rename_i dl hdl
      split at h
      · exact absurd h (by simp)
      · simp only [Except.error.injEq] at h
        subst h
        refine ⟨hext4, ?_, ?_⟩
        · intro hmem
          rw [coreExtend_mem f addr buf.length hmem]
        · exact coreExtend_eof_ge_eof f addr buf.length hinc
    · exact absurd h (by simp)

/-- Claim C10: when the dirty-region insertion fails during a tracked
write, the write returns failure before any of the caller bytes are
copied into the buffer and before the dirty flag is set: the error state
has the original dirty flag and its buffer is the original bytes plus a
zero-filled extension (the buffer growth and eof update may already have
happened, which is all that can differ).  The statement covers every
error return of the write, the overflow rejection included. -/
theorem core_write_error_preserves_bytes (f e : H5FD_core_t) (addr : Nat)
    (buf : List Nat) (hinc : 0 < f.increment) (hmem : f.mem.length = f.eof)
    (h : H5FD__core_write false f addr buf = Except.error e) :
    e.dirty = f.dirty ∧
      e.mem = f.mem ++ List.replicate (e.eof - f.eof) 0 ∧
      f.eof ≤ e.eof ∧
      (∀ i, i < f.eof → e.mem.get? i = f.mem.get? i) := by
  obtain ⟨h1, h2, h3⟩ := core_write_error_shape hinc h
  have h2 := h2 hmem
  rw [hmem] at h2
  refine ⟨h1, h2, h3, ?_⟩
  intro i hi
  rw [h2]
  exact List.get?_append (by omega)

/-- Witness for C10: a tracked write whose index insert fails returns
the pre-write state (here no extension happens, so the error state is
the opened file itself). -/
theorem core_write_error_preserves_bytes_witness :
    (H5FD__core_open_existing (List.replicate 7 0) 4 8 true true true).dirty =
        (H5FD__core_open_existing (List.replicate 7 0) 4 8 true true true).dirty ∧
      (H5FD__core_open_existing (List.replicate 7 0) 4 8 true true true).mem =
        (H5FD__core_open_existing (List.replicate 7 0) 4 8 true true true).mem ++
          List.replicate
            ((H5FD__core_open_existing (List.replicate 7 0) 4 8 true true true).eof -
              (H5FD__core_open_existing (List.replicate 7 0) 4 8 true true true).eof) 0 ∧
      (H5FD__core_open_existing (List.replicate 7 0) 4 8 true true true).eof ≤
        (H5FD__core_open_existing (List.replicate 7 0) 4 8 true true true).eof ∧
      (∀ i, i < (H5FD__core_open_existing (List.replicate 7 0) 4 8 true true true).eof →
        (H5FD__core_open_existing (List.replicate 7 0) 4 8 true true true).mem.get? i =
          (H5FD__core_open_existing (List.replicate 7 0) 4 8 true true true).mem.get? i) :=
  core_write_error_preserves_bytes
    (H5FD__core_open_existing (List.replicate 7 0) 4 8 true true true)
    (H5FD__core_open_existing (List.replicate 7 0) 4 8 true true true)
    0 [1, 1] (by decide) (by decide) (by rfl)

theorem core_write_ok_meminv {io : Bool} {f f' : H5FD_core_t} {addr : Nat}
    {buf : List Nat} (hinc : 0 < f.increment) (hmem : f.mem.length = f.eof)
    (h : H5FD__core_write io f addr buf = Except.ok f') :
    f'.mem.length = f'.eof := by
  obtain ⟨hov, hm, he, _⟩ := core_write_ok_shape h
  rw [hm, he]
  rw [memWrite_length]
  · exact coreExtend_meminv f addr buf.length hinc hmem
  · rw [coreExtend_meminv f addr buf.length hinc hmem]
    exact coreExtend_eof_ge f addr buf.length hinc

theorem runWrites_meminv (ws : List (Nat × List Nat)) (f g : H5FD_core_t)
    (exps : List Region) (hinc : 0 < f.increment) (hmem : f.mem.length = f.eof)
    (h : runWrites f ws = some (g, exps)) :
    g.mem.length = g.eof := by
  induction ws generalizing f g exps with
  | nil =>
    simp only [runWrites, Option.some.injEq] at h
    cases h
    exact hmem
  | cons w rest ih =>
    obtain ⟨addr, buf⟩ := w
    rcases hw : H5FD__core_write true f addr buf with f1 | f1
    · simp [runWrites, hw] at h
    · rcases hr : runWrites f1 rest with _ | p
      · simp [runWrites, hw, hr] at h
      · simp only [runWrites, hw, hr, Option.map_some, Option.some.injEq] at h
        obtain ⟨hov, _, _, hinc1, _⟩ := core_write_ok_shape hw
        have hstep := ih f1 p.1 p.2 (by rw [hinc1]; exact hinc)
          (core_write_ok_meminv hinc hmem hw) (by rw [hr])
        cases h
        exact hstep

/-- Counterexample to claim C4: opening an existing 3-byte backing file
with increment 4 allocates a 3-byte buffer; 3 is not a multiple of the
increment, and it is not the minimum increment multiple (4) covering the
initial content, contradicting both parts of the claim. -/
theorem core_open_buffer_not_increment_multiple :
    (H5FD__core_open_existing (List.replicate 3 0) 4 8 true true true).increment = 4 ∧
      (H5FD__core_open_existing (List.replicate 3 0) 4 8 true true true).mem.length = 3 ∧
      (H5FD__core_open_existing (List.replicate 3 0) 4 8 true true true).mem.length % 4 ≠ 0 ∧
      (H5FD__core_open_existing (List.replicate 3 0) 4 8 true true true).mem.length ≠ 4 := by
  refine ⟨rfl, ?_, ?_, ?_⟩ <;> simp [H5FD__core_open_existing]

/-- Claim C4 (amended): the open-existing path allocates the buffer at
exactly the initial content size (which is the eof, so the buffer always
covers eof, but is a multiple of the increment only when the content
size happens to be one); after any successful sequence of writes the
buffer length still equals eof; and a write extending the file grows
both to the minimal multiple of the increment covering the end of the
write (a multiple of the increment that is at least addr + len(buf) and
less than one increment more). -/
theorem core_buffer_tracks_eof (backing : List Nat) (fa_inc psize : Nat)
    (bs tr rw : Bool) (ws : List (Nat × List Nat)) (g : H5FD_core_t)
    (exps : List Region) (f0 : H5FD_core_t) (addr : Nat) (buf : List Nat)
    (f1 : H5FD_core_t) :
    ((H5FD__core_open_existing backing fa_inc psize bs tr rw).mem.length =
        backing.length ∧
      (H5FD__core_open_existing backing fa_inc psize bs tr rw).mem.length =
        (H5FD__core_open_existing backing fa_inc psize bs tr rw).eof) ∧
      (runWrites (H5FD__core_open_existing backing fa_inc psize bs tr rw) ws =
          some (g, exps) →
        g.mem.length = g.eof) ∧
      (0 < f0.increment → f0.mem.length = f0.eof →
        H5FD__core_write true f0 addr buf = Except.ok f1 →
        f0.eof < addr + buf.length →
        f1.mem.length = f1.eof ∧
          addr + buf.length ≤ f1.eof ∧
          f1.eof % f0.increment = 0 ∧
          f1.eof < addr + buf.length + f0.increment) := by
  refine ⟨⟨rfl, rfl⟩, ?_, ?_⟩
  · intro h
    refine runWrites_meminv ws _ g exps ?_ rfl h
    show 0 < (if fa_inc > 0 then fa_inc else 8192)
    split <;> omega
  · intro hinc hmem hok hext
    obtain ⟨hov, hm, he, _⟩ := core_write_ok_shape hok
    have heof : f1.eof = newEofFor f0.increment (addr + buf.length) := by
      rw [he]
      unfold coreExtend
      rw [if_pos (by omega)]
    refine ⟨core_write_ok_meminv hinc hmem hok, ?_, ?_, ?_⟩
    · rw [heof]; exact newEofFor_ge hinc
    · rw [heof]; exact newEofFor_mod f0.increment (addr + buf.length)
    · rw [heof]; exact newEofFor_lt hinc

/-- Witness for C4 (amended), exercising the extension conjunct: writing
two bytes at address 5 of an empty file with increment 4 grows the
buffer and eof to 8, the minimal increment multiple covering byte 7. -/
theorem core_buffer_tracks_eof_witness :
    (⟨[0, 0, 0, 0, 0, 9, 9, 0], 8, 4, 8, some [(0, 7)], true⟩ : H5FD_core_t).mem.length =
        (⟨[0, 0, 0, 0, 0, 9, 9, 0], 8, 4, 8, some [(0, 7)], true⟩ : H5FD_core_t).eof ∧
      5 + [9, 9].length ≤
        (⟨[0, 0, 0, 0, 0, 9, 9, 0], 8, 4, 8, some [(0, 7)], true⟩ : H5FD_core_t).eof ∧
      (⟨[0, 0, 0, 0, 0, 9, 9, 0], 8, 4, 8, some [(0, 7)], true⟩ : H5FD_core_t).eof %
          (H5FD__core_open_existing [] 4 8 true true true).increment = 0 ∧
      (⟨[0, 0, 0, 0, 0, 9, 9, 0], 8, 4, 8, some [(0, 7)], true⟩ : H5FD_core_t).eof <
        5 + [9, 9].length + (H5FD__core_open_existing [] 4 8 true true true).increment :=
  (core_buffer_tracks_eof [] 4 8 true true true []
    (H5FD__core_open_existing [] 4 8 true true true) []
    (H5FD__core_open_existing [] 4 8 true true true) 5 [9, 9]
    ⟨[0, 0, 0, 0, 0, 9, 9, 0], 8, 4, 8, some [(0, 7)], true⟩).2.2
    (by decide) (by rfl) (by rfl) (by decide)

/-- memcpy leaves bytes below the destination untouched. -/
theorem memWrite_get?_lt {mem buf : List Nat} {addr i : Nat}
    (hia : i < addr) (him : i < mem.length) :
    (memWrite mem addr buf).get? i = mem.get? i := by
  unfold memWrite
  have h1 : i < (mem.take addr).length := by
    rw [List.length_take]
    omega
  rw [List.get?_append (by rw [List.length_append]; omega),
    List.get?_append h1, List.get?_take hia]

/-- memcpy leaves bytes above the copied range untouched. -/
theorem memWrite_get?_ge {mem buf : List Nat} {addr i : Nat}
    (hge : addr + buf.length ≤ i) (hlen : addr + buf.length ≤ mem.length) :
    (memWrite mem addr buf).get? i = mem.get? i := by
  unfold memWrite
  have htl : (mem.take addr).length = addr := by
    rw [List.length_take]
    omega
  have h2 : (mem.take addr ++ buf).length = addr + buf.length := by
    rw [List.length_append, htl]
  rw [List.get?_append_right (by rw [h2]; omega), h2, List.get?_drop]
  congr 1
  omega

/-- memcpy places the source bytes at the destination. -/
theorem memWrite_get?_in {mem buf : List Nat} {addr i : Nat}
    (hlen : addr ≤ mem.length) (hi : i < buf.length) :
    (memWrite mem addr buf).get? (addr + i) = buf.get? i := by
  unfold memWrite
  have htl : (mem.take addr).length = addr := by
    rw [List.length_take]
    omega
  have h2 : addr + i < (mem.take addr ++ buf).length := by
    rw [List.length_append, htl]
    omega
  rw [List.get?_append h2, List.get?_append_right (by rw [htl]; omega), htl]
  congr 1
  omega

theorem memWrite_nil {mem : List Nat} {addr : Nat} :
    memWrite mem addr [] = mem := by
  unfold memWrite
  simp [List.take_append_drop]

/-- Frame property of one core write: a successful write whose byte
range does not cover position i (i below the old eof) leaves the byte at
i unchanged (the buffer extension only appends zeros past the old eof,
and the memcpy touches only the written range). -/
theorem core_write_frame {io : Bool} {f f' : H5FD_core_t} {a1 : Nat}
    {b1 : List Nat} (hinc : 0 < f.increment) (hmem : f.mem.length = f.eof)
    (hok : H5FD__core_write io f a1 b1 = Except.ok f') (i : Nat)
    (hi : i < f.eof)
    (hd : b1 = [] ∨ a1 + b1.length ≤ i ∨ i < a1) :
    f'.mem.get? i = f.mem.get? i := by
  obtain ⟨hov, hm, he, _⟩ := core_write_ok_shape hok
  have hextlen := coreExtend_meminv f a1 b1.length hinc hmem
  have hextcov := coreExtend_eof_ge f a1 b1.length hinc
  have hexteof := coreExtend_eof_ge_eof f a1 b1.length hinc
  have hbase : (coreExtend f a1 b1.length).mem.get? i = f.mem.get? i := by
    rw [coreExtend_mem f a1 b1.length hmem]
    exact List.get?_append (by omega)
  rw [hm]
  rcases hd with hnil | hge | hlt
  · rw [hnil] at hbase ⊢
    rw [memWrite_nil]
    exact hbase
  · rw [memWrite_get?_ge hge (by omega)]
    exact hbase
  · rw [memWrite_get?_lt hlt (by omega)]
    exact hbase

/-- Frame property of a run of writes: as long as every write in the
run has an empty byte range or one entirely below or entirely above the
window addr .. addr+sz, the bytes of that window (inside the starting
eof) are preserved, the buffer keeps covering eof, and eof never
shrinks. -/
theorem runWrites_frame (addr sz : Nat) (ws : List (Nat × List Nat)) :
    ∀ (h g : H5FD_core_t) (exps : List Region),
      0 < h.increment → h.mem.length = h.eof → addr + sz ≤ h.eof →
      (∀ w ∈ ws, (w.2 : List Nat) = [] ∨
        w.1 + (w.2 : List Nat).length ≤ addr ∨ addr + sz ≤ w.1) →
      runWrites h ws = some (g, exps) →
      g.mem.length = g.eof ∧ addr + sz ≤ g.eof ∧
        ∀ i, i < sz → g.mem.get? (addr + i) = h.mem.get? (addr + i) := by
  induction ws with
  | nil =>
    intro h g exps hinc hmem hcov _ hrun
    simp only [runWrites, Option.some.injEq] at hrun
    cases hrun
    exact ⟨hmem, hcov, fun i _ => rfl⟩
  | cons w rest ih =>
    intro h g exps hinc hmem hcov hdisj hrun
    obtain ⟨a1, b1⟩ := w
    rcases hw : H5FD__core_write true h a1 b1 with h1 | h1
    · simp [runWrites, hw] at hrun
    · rcases hr : runWrites h1 rest with _ | p
      · simp [runWrites, hw, hr] at hrun
      · simp only [runWrites, hw, hr, Option.map_some, Option.some.injEq] at hrun
        obtain ⟨hov, hm, he, hinc1, _⟩ := core_write_ok_shape hw
        have hmem1 : h1.mem.length = h1.eof := core_write_ok_meminv hinc hmem hw
        have heof1 : h.eof ≤ h1.eof := by
          rw [he]
          exact coreExtend_eof_ge_eof h a1 b1.length hinc
        have hdisj1 : b1 = [] ∨ a1 + b1.length ≤ addr ∨ addr + sz ≤ a1 :=
          hdisj (a1, b1) (List.mem_cons_self _ _)
        have hstep : ∀ i, i < sz →
            h1.mem.get? (addr + i) = h.mem.get? (addr + i) := by
          intro i hi
          apply core_write_frame hinc hmem hw
          · omega
          · rcases hdisj1 with hx | hx | hx
            · exact Or.inl hx
            · exact Or.inr (Or.inl (by omega))
            · exact Or.inr (Or.inr (by omega))
        have hih := ih h1 p.1 p.2 (by rw [hinc1]; exact hinc) hmem1 (by omega)
          (fun v hv => hdisj v (List.mem_cons_of_mem _ hv)) (by rw [hr])
        cases hrun
        refine ⟨hih.1, hih.2.1, ?_⟩
        intro i hi
        rw [hih.2.2 i hi, hstep i hi]

/-- Claim C5: writing buf at addr, then performing any sequence of
writes none of which touches the byte range addr .. addr+sz (each is
empty or lies entirely below or entirely above it), then reading sz ≤
len(buf) bytes back from addr returns exactly the first sz bytes of
buf. -/
theorem core_write_read_roundtrip (f f1 g : H5FD_core_t) (addr sz : Nat)
    (buf : List Nat) (ws : List (Nat × List Nat)) (exps : List Region)
    (hinc : 0 < f.increment) (hmem : f.mem.length = f.eof)
    (hok : H5FD__core_write true f addr buf = Except.ok f1)
    (hsz : sz ≤ buf.length)
    (hdisj : ∀ w ∈ ws, (w.2 : List Nat) = [] ∨
      w.1 + (w.2 : List Nat).length ≤ addr ∨ addr + sz ≤ w.1)
    (hrun : runWrites f1 ws = some (g, exps)) :
    H5FD__core_read g addr sz = some (buf.take sz) := by
  obtain ⟨hov, hm, he, hinc1, _⟩ := core_write_ok_shape hok
  have hle : addr + buf.length ≤ posixMaxAddr :=
    (region_overflow_false_iff addr buf.length).mp hov
  have haddr_ne : addr ≠ haddrUndef := by
    unfold haddrUndef posixMaxAddr at *
    omega
  have hov2 : H5FD_POSIX_REGION_OVERFLOW addr sz = false :=
    (region_overflow_false_iff addr sz).mpr (by omega)
  have hext_len := coreExtend_meminv f addr buf.length hinc hmem
  have hcover := coreExtend_eof_ge f addr buf.length hinc
  have hmem1 : f1.mem.length = f1.eof := core_write_ok_meminv hinc hmem hok
  have hcov1 : addr + sz ≤ f1.eof := by
    rw [he]
    omega
  obtain ⟨hgmem, hgcov, hframe⟩ := runWrites_frame addr sz ws f1 g exps
    (by rw [hinc1]; exact hinc) hmem1 hcov1 hdisj hrun
  have hbuf_at : ∀ i, i < sz → f1.mem.get? (addr + i) = buf.get? i := by
    intro i hi
    rw [hm]
    exact memWrite_get?_in (by omega) (by omega)
  unfold H5FD__core_read
  rw [if_neg haddr_ne, if_neg (by simp [hov2])]
  by_cases hz : sz = 0
  · subst hz
    by_cases hlt : addr < g.eof <;> simp [hlt]
  · have hlt : addr < g.eof := by omega
    rw [if_pos hlt]
    have hnb : min sz (g.eof - addr) = sz := by omega
    simp only [hnb]
    have hslice : (g.mem.drop addr).take sz = buf.take sz := by
      apply List.ext_get?
      intro n
      by_cases hn : n < sz
      · rw [List.get?_take hn, List.get?_drop, hframe n hn, hbuf_at n hn,
          List.get?_take hn]
      · push_neg at hn
        rw [List.get?_eq_none.mpr (by rw [List.length_take]; omega),
          List.get?_eq_none.mpr (by rw [List.length_take]; omega)]
    rw [hslice]
    simp

/-- Witness for C5: write bytes 3, 4, 5 at address 1 of a fresh file
(write tracking off, so the dirty index stays absent), then write a byte
at the disjoint address 6 (which also grows the file), and read two
bytes back from address 1. -/
theorem core_write_read_roundtrip_witness :
    H5FD__core_read ⟨[0, 3, 4, 5, 0, 0, 9, 0], 8, 4, 8, none, true⟩
        1 2 = some ([3, 4, 5].take 2) :=
  core_write_read_roundtrip (H5FD__core_open_existing [] 4 8 true false true)
    ⟨[0, 3, 4, 5], 4, 4, 8, none, true⟩
    ⟨[0, 3, 4, 5, 0, 0, 9, 0], 8, 4, 8, none, true⟩ 1 2 [3, 4, 5]
    [(6, [9])] [(0, 7)]
    (by decide) (by rfl) (by rfl) (by decide) (by decide) (by rfl)

/-! ### The dirty-region index invariant and union property (claim C3) -/

/-- Separation of two regions: a ends at least one byte before b starts
(regions that touch are merged by H5FD__core_add_dirty_region). -/
def Sep (a b : Region) : Prop := a.2 + 1 < b.1

/-- The index invariant: every region is well formed (start at most end)
and the list is pairwise separated in order (hence sorted by start and
pairwise non-overlapping). -/
def GoodList (l : List Region) : Prop :=
  (∀ r ∈ l, r.1 ≤ r.2) ∧ l.Pairwise Sep

/-- Byte membership in the union of the byte ranges of an index. -/
def inRegions (l : List Region) (x : Nat) : Bool :=
  l.any fun r => decide (r.1 ≤ x) && decide (x ≤ r.2)

theorem inRegions_iff {l : List Region} {x : Nat} :
    inRegions l x = true ↔ ∃ r ∈ l, r.1 ≤ x ∧ x ≤ r.2 := by
  simp [inRegions, List.any_eq_true]

theorem good_sorted {l : List Region} (hg : GoodList l) :
    l.Pairwise fun a b : Region => a.1 < b.1 := by
  refine List.Pairwise.imp_of_mem ?_ hg.2
  intro a b ha hb hab
  have := hg.1 a ha
  unfold Sep at hab
  omega

theorem good_sep_or {l : List Region} (hg : GoodList l) {a b : Region}
    (ha : a ∈ l) (hb : b ∈ l) (hne : a ≠ b) : Sep a b ∨ Sep b a := by
  have hsym : Symmetric fun x y : Region => Sep x y ∨ Sep y x := by
    intro x y h
    exact h.symm
  have hp : l.Pairwise fun x y : Region => Sep x y ∨ Sep y x :=
    hg.2.imp fun h => Or.inl h
  exact hp.forall hsym ha hb hne

theorem good_start_ne {l : List Region} (hg : GoodList l) {a b : Region}
    (ha : a ∈ l) (hb : b ∈ l) (hne : a ≠ b) : a.1 ≠ b.1 := by
  rcases good_sep_or hg ha hb hne with h | h <;>
    · have := hg.1 a ha
      have := hg.1 b hb
      unfold Sep at h
      omega

theorem good_filter {l : List Region} (hg : GoodList l)
    (p : Region → Bool) : GoodList (l.filter p) :=
  ⟨fun r hr => hg.1 r (List.mem_of_mem_filter hr), hg.2.filter p⟩

theorem pairwise_getLast {R : Region → Region → Prop} :
    ∀ {l : List Region} {r : Region}, l.Pairwise R → l.getLast? = some r →
      ∀ s ∈ l, s = r ∨ R s r := by
  intro l
  induction l with
  | nil =>
    intro r _ h
    exact absurd h (by simp)
  | cons a rest ih =>
    intro r hp hlast s hs
    cases rest with
    | nil =>
      simp only [List.getLast?_singleton, Option.some.injEq] at hlast
      simp only [List.mem_singleton] at hs
      exact Or.inl (hs.trans hlast)
    | cons b rest2 =>
      rw [List.getLast?_cons_cons] at hlast
      rcases List.mem_cons.mp hs with hs | hs
      · subst hs
        have hrmem : r ∈ b :: rest2 := by
          obtain ⟨hne, heq⟩ := List.mem_getLast?_eq_getLast (Option.mem_def.mpr hlast)
          exact heq ▸ List.getLast_mem hne
        exact Or.inr ((List.pairwise_cons.mp hp).1 r hrmem)
      · exact ih (List.pairwise_cons.mp hp).2 hlast s hs

theorem H5SL_less_none {l : List Region} {key : Nat}
    (h : H5SL_less l key = none) : ∀ r ∈ l, ¬ r.1 < key := by
  intro r hr hlt
  unfold H5SL_less at h
  rw [List.getLast?_eq_none_iff] at h
  have : r ∈ l.filter fun r => decide (r.1 < key) :=
    List.mem_filter.mpr ⟨hr, by simpa using hlt⟩
  rw [h] at this
  exact absurd this (by simp)

theorem H5SL_less_mono_none {l : List Region} {key key' : Nat}
    (h : H5SL_less l key = none) (hk : key' ≤ key) :
    H5SL_less l key' = none := by
  unfold H5SL_less
  rw [List.getLast?_eq_none_iff, List.filter_eq_nil]
  intro r hr
  have := H5SL_less_none h r hr
  simp only [decide_eq_true_eq]
  omega

theorem H5SL_less_max {l : List Region} {key : Nat} {a : Region}
    (hg : GoodList l) (h : H5SL_less l key = some a) :
    ∀ r ∈ l, r.1 < key → r.1 ≤ a.1 := by
  intro r hr hlt
  have hps : (l.filter fun r => decide (r.1 < key)).Pairwise
      fun a b : Region => a.1 < b.1 := (good_sorted hg).filter _
  have hrmem : r ∈ l.filter fun r => decide (r.1 < key) :=
    List.mem_filter.mpr ⟨hr, by simpa using hlt⟩
  rcases pairwise_getLast hps h r hrmem with heq | hlt2
  · rw [heq]
  · omega

theorem removeLoop_stop {l : List Region} {a : Region} {t : Nat}
    (hle : ¬ a.1 > t) : removeLoop l a t = l := by
  rw [removeLoop]
  simp [hle]

theorem removeLoop_step_none {l : List Region} {a : Region} {t : Nat}
    (hgt : a.1 > t) (hnone : H5SL_less l (a.1 - 1) = none) :
    removeLoop l a t = H5SL_remove l a.1 := by
  rw [removeLoop]
  simp only [hgt, if_true]
  split
  · rename_i p heq
    rw [hnone] at heq
    exact absurd heq (by simp)
  · rfl

theorem removeLoop_step_some {l : List Region} {a p : Region} {t : Nat}
    (hgt : a.1 > t) (hsome : H5SL_less l (a.1 - 1) = some p) :
    removeLoop l a t = removeLoop (H5SL_remove l a.1) p t := by
  rw [removeLoop]
  simp only [hgt, if_true]
  split
  · rename_i q heq
    rw [hsome] at heq
    cases heq
    rfl
  · rename_i heq
    rw [hsome] at heq
    exact absurd heq (by simp)

/-- In a good index no region can start exactly one byte below another
region's start: it would have to end before that start and be at least
one byte long, so the two would touch. -/
theorem good_no_start_pred {l : List Region} (hg : GoodList l) {a : Region}
    (ha : a ∈ l) : ∀ r ∈ l, r.1 ≠ a.1 - 1 ∨ a.1 ≤ r.1 := by
  intro r hr
  by_cases hne : r = a
  · subst hne
    right
    exact le_refl _
  · rcases good_sep_or hg hr ha hne with h | h
    · left
      have := hg.1 r hr
      unfold Sep at h
      omega
    · right
      have := hg.1 a ha
      unfold Sep at h
      omega

/-- The predecessor found by the removal loop is maximal among regions
below the removed region's start: the loop looks up key start - 1, but
no region can sit exactly at start - 1. -/
theorem good_pred_max {l : List Region} (hg : GoodList l) {a p : Region}
    (ha : a ∈ l) (hp : H5SL_less l (a.1 - 1) = some p) :
    ∀ r ∈ l, r.1 < a.1 → r.1 ≤ p.1 := by
  intro r hr hlt
  rcases good_no_start_pred hg ha r hr with hne | hge
  · exact H5SL_less_max hg hp r hr (by omega)
  · omega

theorem good_pred_none {l : List Region} (hg : GoodList l) {a : Region}
    (ha : a ∈ l) (hnone : H5SL_less l (a.1 - 1) = none) :
    ∀ r ∈ l, r.1 < a.1 → False := by
  intro r hr hlt
  rcases good_no_start_pred hg ha r hr with hne | hge
  · exact H5SL_less_none hnone r hr (by omega)
  · omega

/-- The removal loop of H5FD__core_add_dirty_region deletes exactly the
regions whose start lies strictly between the merge start and the start
of the initial node (inclusive); everything at or below the merge start
and everything above the initial node survives. -/
theorem removeLoop_filter (t : Nat) :
    ∀ (n : Nat) (l : List Region) (a : Region), a.1 ≤ n → GoodList l →
      a ∈ l →
      removeLoop l a t =
        l.filter fun r => decide (r.1 ≤ t) || decide (a.1 < r.1) := by
  intro n
  induction n with
  | zero =>
    intro l a hle hg ha
    have h0 : a.1 = 0 := by omega
    rw [removeLoop_stop (by omega)]
    symm
    apply List.filter_eq_self.mpr
    intro r hr
    simp only [Bool.or_eq_true, decide_eq_true_eq]
    omega
  | succ n ih =>
    intro l a hle hg ha
    by_cases hgt : a.1 > t
    · have hremove_eq : ∀ r ∈ l, r ≠ a → (r.1 != a.1) = true := by
        intro r hr hne
        simpa using good_start_ne hg hr ha hne
      rcases hp : H5SL_less l (a.1 - 1) with _ | p
      · rw [removeLoop_step_none hgt hp]
        unfold H5SL_remove
        apply List.filter_congr
        intro r hr
        by_cases hne : r = a
        · subst hne
          rw [bne_self_eq_false]
          symm
          rw [Bool.or_eq_false_iff]
          exact ⟨decide_eq_false (by omega), decide_eq_false (by omega)⟩
        · have hne1 : r.1 ≠ a.1 := good_start_ne hg hr ha hne
          have hnp : ¬ r.1 < a.1 := fun hc => good_pred_none hg ha hp r hr hc
          rw [Bool.eq_iff_iff]
          simp only [bne_iff_ne, ne_eq, Bool.or_eq_true, decide_eq_true_eq]
          omega
      · rw [removeLoop_step_some hgt hp]
        obtain ⟨hpmem, hplt⟩ := H5SL_less_mem_lt hp
        have hpa : p ≠ a := by
          intro hcon
          subst hcon
          omega
        have hgood1 : GoodList (H5SL_remove l a.1) := good_filter hg _
        have hpmem1 : p ∈ H5SL_remove l a.1 :=
          List.mem_filter.mpr ⟨hpmem, hremove_eq p hpmem hpa⟩
        have hih := ih (H5SL_remove l a.1) p (by omega) hgood1 hpmem1
        rw [hih]
        unfold H5SL_remove
        rw [List.filter_filter]
        apply List.filter_congr
        intro r hr
        by_cases hne : r = a
        · subst hne
          rw [bne_self_eq_false, Bool.and_false]
          symm
          rw [Bool.or_eq_false_iff]
          exact ⟨decide_eq_false (by omega), decide_eq_false (by omega)⟩
        · have hne1 : r.1 ≠ a.1 := good_start_ne hg hr ha hne
          have hmax : r.1 < a.1 → r.1 ≤ p.1 := good_pred_max hg ha hp r hr
          rw [Bool.eq_iff_iff]
          simp only [bne_iff_ne, ne_eq, Bool.and_eq_true, Bool.or_eq_true,
            decide_eq_true_eq]
          omega
    · rw [removeLoop_stop hgt]
      symm
      apply List.filter_eq_self.mpr
      intro r hr
      simp only [Bool.or_eq_true, decide_eq_true_eq]
      omega

theorem mem_H5SL_insert {it y : Region} :
    ∀ {l : List Region}, y ∈ H5SL_insert l it ↔ y = it ∨ y ∈ l := by
  intro l
  induction l with
  | nil => simp [H5SL_insert]
  | cons r rest ih =>
    unfold H5SL_insert
    by_cases hlt : it.1 < r.1
    · simp only [hlt, if_true, List.mem_cons]
    · simp only [hlt, if_false, List.mem_cons, ih]
      tauto

theorem inRegions_H5SL_insert {l : List Region} {it : Region} {x : Nat} :
    inRegions (H5SL_insert l it) x = true ↔
      inRegions l x = true ∨ (it.1 ≤ x ∧ x ≤ it.2) := by
  simp only [inRegions_iff]
  constructor
  · rintro ⟨r, hr, hx⟩
    rcases mem_H5SL_insert.mp hr with heq | hmem
    · subst heq
      exact Or.inr hx
    · exact Or.inl ⟨r, hmem, hx⟩
  · rintro (⟨r, hmem, hx⟩ | hx)
    · exact ⟨r, mem_H5SL_insert.mpr (Or.inr hmem), hx⟩
    · exact ⟨it, mem_H5SL_insert.mpr (Or.inl rfl), hx⟩

theorem H5SL_insert_good {it : Region} (hit : it.1 ≤ it.2) :
    ∀ {l : List Region}, GoodList l →
      (∀ r ∈ l, r.2 + 1 < it.1 ∨ it.2 + 1 < r.1) →
      GoodList (H5SL_insert l it) := by
  intro l
  induction l with
  | nil =>
    intro _ _
    refine ⟨?_, ?_⟩
    · intro s hs
      simp only [H5SL_insert, List.mem_singleton] at hs
      exact hs ▸ hit
    · simp [H5SL_insert]
  | cons r rest ih =>
    intro hg hsep
    have hgr : GoodList rest :=
      ⟨fun s hs => hg.1 s (List.mem_cons_of_mem r hs),
        (List.pairwise_cons.mp hg.2).2⟩
    have hrrest := (List.pairwise_cons.mp hg.2).1
    have hrv : r.1 ≤ r.2 := hg.1 r (List.mem_cons_self r rest)
    unfold H5SL_insert
    by_cases hlt : it.1 < r.1
    · rw [if_pos hlt]
      have hsepr : it.2 + 1 < r.1 := by
        rcases hsep r (List.mem_cons_self r rest) with h | h
        · omega
        · exact h
      refine ⟨?_, ?_⟩
      · intro s hs
        rcases List.mem_cons.mp hs with heq | hs2
        · exact heq ▸ hit
        · exact hg.1 s hs2
      · rw [List.pairwise_cons]
        refine ⟨?_, hg.2⟩
        intro s hs
        rcases List.mem_cons.mp hs with heq | hs2
        · subst heq
          exact hsepr
        · have := hrrest s hs2
          unfold Sep at *
          omega
    · rw [if_neg hlt]
      have hsepr : r.2 + 1 < it.1 := by
        rcases hsep r (List.mem_cons_self r rest) with h | h
        · exact h
        · omega
      have hih := ih hgr fun s hs => hsep s (List.mem_cons_of_mem r hs)
      refine ⟨?_, ?_⟩
      · intro s hs
        rcases List.mem_cons.mp hs with heq | hs2
        · exact heq ▸ hrv
        · exact hih.1 s hs2
      · rw [List.pairwise_cons]
        refine ⟨?_, hih.2⟩
        intro s hs
        rcases mem_H5SL_insert.mp hs with heq | hs2
        · subst heq
          exact hsepr
        · exact hrrest s hs2

theorem roundStart_le (psize s0 : Nat) : roundStart psize s0 ≤ s0 := by
  unfold roundStart
  split
  · exact Nat.div_mul_le_self s0 psize
  · exact le_refl s0

theorem roundEnd_ge {psize eof e0 : Nat} (hp : 0 < psize) (he : e0 < eof) :
    e0 ≤ roundEnd psize eof e0 := by
  unfold roundEnd
  have h1 := Nat.div_add_mod e0 psize
  have h2 := Nat.mod_lt e0 hp
  have h3 : (e0 / psize + 1) * psize = e0 / psize * psize + psize :=
    Nat.succ_mul (e0 / psize) psize
  have h4 : psize * (e0 / psize) = e0 / psize * psize :=
    Nat.mul_comm psize (e0 / psize)
  split
  · split <;> omega
  · exact le_refl e0

/-- The new-node path of H5FD__core_add_dirty_region: after the removal
loop, inserting the (possibly after-extended) new region preserves the
index invariant and adds exactly the bytes S .. E0 to the union.  The
hypothesis hsep says every surviving region at or below the new start is
separated from it (vacuously true when none exists). -/
theorem add_dirty_insert_case (l : List Region) (S E0 E2 : Nat) (A : Region)
    (hg : GoodList l) (hSE : S ≤ E0)
    (hA : H5SL_less l (E0 + 2) = some A)
    (hE2 : E2 = if S < A.1 ∧ E0 < A.2 then A.2 else E0)
    (hsep : ∀ r ∈ l, r.1 ≤ S → r.2 + 1 < S) :
    GoodList (H5SL_insert (removeLoop l A S) (S, E2)) ∧
      ∀ x, inRegions (H5SL_insert (removeLoop l A S) (S, E2)) x = true ↔
        (inRegions l x = true ∨ (S ≤ x ∧ x ≤ E0)) := by
  obtain ⟨hAmem, hAlt⟩ := H5SL_less_mem_lt hA
  have hAle : A.1 ≤ E0 + 1 := by omega
  have hAmax := H5SL_less_max hg hA
  have hl1 := removeLoop_filter S A.1 l A (le_refl A.1) hg hAmem
  have hE0E2 : E0 ≤ E2 := by
    rw [hE2]
    split
    · rename_i hx
      omega
    · exact le_refl E0
  have hhigh : ∀ r ∈ l, A.1 < r.1 → E2 + 1 < r.1 := by
    intro r hr hgt
    have hrne : r ≠ A := by
      intro hc
      subst hc
      omega
    have hge : E0 + 2 ≤ r.1 := by
      by_contra hc
      push_neg at hc
      have := hAmax r hr (by omega)
      omega
    have hsepAr : Sep A r := by
      rcases good_sep_or hg hAmem hr (Ne.symm hrne) with h | h
      · exact h
      · have h1 := hg.1 r hr
        unfold Sep at h
        omega
    unfold Sep at hsepAr
    rw [hE2]
    split
    · omega
    · omega
  have hkeep_iff : ∀ r : Region, r ∈ removeLoop l A S ↔
      r ∈ l ∧ (r.1 ≤ S ∨ A.1 < r.1) := by
    intro r
    rw [hl1, List.mem_filter]
    simp only [Bool.or_eq_true, decide_eq_true_eq]
  have hdropped : ∀ r ∈ l, ¬ (r.1 ≤ S ∨ A.1 < r.1) →
      S < r.1 ∧ r.1 ≤ A.1 ∧ r.2 ≤ E2 := by
    intro r hr hd
    push_neg at hd
    refine ⟨hd.1, hd.2, ?_⟩
    by_cases hrA : r = A
    · subst hrA
      rw [hE2]
      split
      · exact le_refl _
      · rename_i hnx
        push_neg at hnx
        have := hnx hd.1
        omega
    · have hlt : r.1 < A.1 := by
        have := good_start_ne hg hr hAmem hrA
        omega
      have hsepr : Sep r A := by
        rcases good_sep_or hg hr hAmem hrA with h | h
        · exact h
        · have h1 := hg.1 A hAmem
          unfold Sep at h
          omega
      unfold Sep at hsepr
      omega
  constructor
  · apply H5SL_insert_good (by simp only; omega)
    · rw [hl1]
      exact good_filter hg _
    · intro r hr
      obtain ⟨hrl, hor⟩ := (hkeep_iff r).mp hr
      simp only
      rcases hor with hle | hgt
      · exact Or.inl (hsep r hrl hle)
      · exact Or.inr (hhigh r hrl hgt)
  · intro x
    rw [inRegions_H5SL_insert]
    simp only
    constructor
    · rintro (hin | ⟨hx1, hx2⟩)
      · obtain ⟨r, hr, hx⟩ := inRegions_iff.mp hin
        exact Or.inl (inRegions_iff.mpr ⟨r, ((hkeep_iff r).mp hr).1, hx⟩)
      · by_cases hle : x ≤ E0
        · exact Or.inr ⟨hx1, hle⟩
        · push_neg at hle
          have hext : E2 = A.2 ∧ E0 < A.2 := by
            rw [hE2] at hx2 ⊢
            split at hx2
            · rename_i hc
              exact ⟨if_pos hc, hc.2⟩
            · omega
          refine Or.inl (inRegions_iff.mpr ⟨A, hAmem, ?_, ?_⟩)
          · omega
          · omega
    · rintro (hin | ⟨hx1, hx2⟩)
      · obtain ⟨r, hr, hx⟩ := inRegions_iff.mp hin
        by_cases hkeep : r.1 ≤ S ∨ A.1 < r.1
        · exact Or.inl (inRegions_iff.mpr ⟨r, (hkeep_iff r).mpr ⟨hr, hkeep⟩, hx⟩)
        · obtain ⟨h1, h2, h3⟩ := hdropped r hr hkeep
          exact Or.inr ⟨by omega, by omega⟩
      · exact Or.inr ⟨hx1, by omega⟩

theorem map_upd_ne {P : List Region} {k e2 : Nat}
    (h : ∀ r ∈ P, r.1 ≠ k) :
    (P.map fun r => if r.1 = k then (r.1, if r.2 < e2 then e2 else r.2) else r)
      = P := by
  have : ∀ r ∈ P,
      (if r.1 = k then ((r.1, if r.2 < e2 then e2 else r.2) : Region) else r)
        = id r := by
    intro r hr
    rw [if_neg (h r hr)]
    rfl
  rw [List.map_congr_left this, List.map_id]

/-- The merge path of H5FD__core_add_dirty_region: when the write merges
into the before-node B, the removal loop plus the in-place end update of
B preserve the index invariant and add exactly the bytes S .. E0 to the
union. -/
theorem add_dirty_merge_case (l : List Region) (S E0 E2 : Nat) (A B : Region)
    (hg : GoodList l) (hSE : S ≤ E0)
    (hA : H5SL_less l (E0 + 2) = some A)
    (hB : H5SL_less l (S + 1) = some B)
    (hE2 : E2 = if S < A.1 ∧ E0 < A.2 then A.2 else E0)
    (hmerge : S ≤ B.2 + 1) :
    GoodList ((removeLoop l A B.1).map fun r =>
        if r.1 = B.1 then (r.1, if r.2 < E2 then E2 else r.2) else r) ∧
      ∀ x, inRegions ((removeLoop l A B.1).map fun r =>
          if r.1 = B.1 then (r.1, if r.2 < E2 then E2 else r.2) else r) x = true ↔
        (inRegions l x = true ∨ (S ≤ x ∧ x ≤ E0)) := by
  obtain ⟨hAmem, hAlt⟩ := H5SL_less_mem_lt hA
  obtain ⟨hBmem, hBlt⟩ := H5SL_less_mem_lt hB
  have hAle : A.1 ≤ E0 + 1 := by omega
  have hBle : B.1 ≤ S := by omega
  have hAmax := H5SL_less_max hg hA
  have hBmax := H5SL_less_max hg hB
  have hBv : B.1 ≤ B.2 := hg.1 B hBmem
  have hl1 := removeLoop_filter B.1 A.1 l A (le_refl A.1) hg hAmem
  have hE0E2 : E0 ≤ E2 := by
    rw [hE2]
    split
    · rename_i hx
      omega
    · exact le_refl E0
  have hE2max : E2 ≤ (if B.2 < E2 then E2 else B.2) := by
    split <;> omega
  have hB2max : B.2 ≤ (if B.2 < E2 then E2 else B.2) := by
    split <;> omega
  have hhigh : ∀ r ∈ l, A.1 < r.1 → E2 + 1 < r.1 ∧ E0 + 1 < r.1 := by
    intro r hr hgt
    have hrne : r ≠ A := by
      intro hc
      subst hc
      omega
    have hge : E0 + 2 ≤ r.1 := by
      by_contra hc
      push_neg at hc
      have := hAmax r hr (by omega)
      omega
    have hsepAr : Sep A r := by
      rcases good_sep_or hg hAmem hr (Ne.symm hrne) with h | h
      · exact h
      · have h1 := hg.1 r hr
        unfold Sep at h
        omega
    unfold Sep at hsepAr
    refine ⟨?_, by omega⟩
    rw [hE2]
    split
    · omega
    · omega
  have hkeep_iff : ∀ r : Region, r ∈ removeLoop l A B.1 ↔
      r ∈ l ∧ (r.1 ≤ B.1 ∨ A.1 < r.1) := by
    intro r
    rw [hl1, List.mem_filter]
    simp only [Bool.or_eq_true, decide_eq_true_eq]
  have hdropped : ∀ r ∈ l, ¬ (r.1 ≤ B.1 ∨ A.1 < r.1) →
      B.1 < r.1 ∧ r.1 ≤ A.1 ∧ r.2 ≤ E2 := by
    intro r hr hd
    push_neg at hd
    refine ⟨hd.1, hd.2, ?_⟩
    by_cases hrA : r = A
    · subst hrA
      have hSlt : S < r.1 := by
        by_contra hc
        push_neg at hc
        have := hBmax r hr (by omega)
        omega
      rw [hE2]
      split
      · exact le_refl _
      · rename_i hnx
        push_neg at hnx
        have := hnx hSlt
        omega
    · have hlt : r.1 < A.1 := by
        have := good_start_ne hg hr hAmem hrA
        omega
      have hsepr : Sep r A := by
        rcases good_sep_or hg hr hAmem hrA with h | h
        · exact h
        · have h1 := hg.1 A hAmem
          unfold Sep at h
          omega
      unfold Sep at hsepr
      omega
  -- decompose the post-removal list around B
  have hBmem1 : B ∈ removeLoop l A B.1 :=
    (hkeep_iff B).mpr ⟨hBmem, Or.inl (le_refl B.1)⟩
  obtain ⟨P, Q, hPQ⟩ := List.append_of_mem hBmem1
  have hg1 : GoodList (removeLoop l A B.1) := by
    rw [hl1]
    exact good_filter hg _
  have hgPQ : GoodList (P ++ B :: Q) := hPQ ▸ hg1
  have hPpair := (List.pairwise_append.mp hgPQ.2).1
  have hBQpair := (List.pairwise_append.mp hgPQ.2).2.1
  have hPcross := (List.pairwise_append.mp hgPQ.2).2.2
  have hPsep : ∀ p ∈ P, Sep p B := by
    intro p hp
    exact hPcross p hp B (List.mem_cons_self B Q)
  have hQsep : ∀ q ∈ Q, Sep B q := by
    intro q hq
    exact (List.pairwise_cons.mp hBQpair).1 q hq
  have hPne : ∀ p ∈ P, p.1 ≠ B.1 := by
    intro p hp
    have hv := hgPQ.1 p (List.mem_append_left _ hp)
    have := hPsep p hp
    unfold Sep at this
    omega
  have hQne : ∀ q ∈ Q, q.1 ≠ B.1 := by
    intro q hq
    have := hQsep q hq
    unfold Sep at this
    omega
  have hQgt : ∀ q ∈ Q, B.2 + 1 < q.1 := fun q hq => hQsep q hq
  have hQmeml : ∀ q ∈ Q, q ∈ l ∧ A.1 < q.1 := by
    intro q hq
    have hq1 : q ∈ removeLoop l A B.1 := by
      rw [hPQ]
      exact List.mem_append_right _ (List.mem_cons_of_mem B hq)
    obtain ⟨hql, hor⟩ := (hkeep_iff q).mp hq1
    refine ⟨hql, ?_⟩
    rcases hor with h | h
    · have := hQgt q hq
      omega
    · exact h
  have hPmeml : ∀ p ∈ P, p ∈ l := by
    intro p hp
    have hp1 : p ∈ removeLoop l A B.1 := by
      rw [hPQ]
      exact List.mem_append_left _ hp
    exact ((hkeep_iff p).mp hp1).1
  -- the map rewrites only B
  have hmap : ((removeLoop l A B.1).map fun r =>
      if r.1 = B.1 then (r.1, if r.2 < E2 then E2 else r.2) else r) =
      P ++ ((B.1, if B.2 < E2 then E2 else B.2) : Region) :: Q := by
    rw [hPQ, List.map_append, List.map_cons, map_upd_ne (hPne),
      map_upd_ne (hQne), if_pos rfl]
  rw [hmap]
  constructor
  · refine ⟨?_, ?_⟩
    · intro r hr
      rcases List.mem_append.mp hr with hp | hbq
      · exact hgPQ.1 r (List.mem_append_left _ hp)
      · rcases List.mem_cons.mp hbq with heq | hq
        · subst heq
          simp only
          omega
        · exact hgPQ.1 r (List.mem_append_right _ (List.mem_cons_of_mem B hq))
    · rw [List.pairwise_append]
      refine ⟨hPpair, ?_, ?_⟩
      · rw [List.pairwise_cons]
        refine ⟨?_, (List.pairwise_cons.mp hBQpair).2⟩
        intro q hq
        obtain ⟨hql, hqgtA⟩ := hQmeml q hq
        have h1 := hQgt q hq
        have h2 := (hhigh q hql hqgtA).1
        unfold Sep
        simp only
        split <;> omega
      · intro p hp y hy
        rcases List.mem_cons.mp hy with heq | hq
        · subst heq
          have := hPsep p hp
          unfold Sep at *
          simpa using this
        · exact hPcross p hp y (List.mem_cons_of_mem B hq)
  · intro x
    have hsplit : inRegions (P ++ ((B.1, if B.2 < E2 then E2 else B.2) : Region) :: Q) x = true ↔
        (∃ r ∈ P, r.1 ≤ x ∧ x ≤ r.2) ∨
          (B.1 ≤ x ∧ x ≤ (if B.2 < E2 then E2 else B.2)) ∨
          (∃ r ∈ Q, r.1 ≤ x ∧ x ≤ r.2) := by
      rw [inRegions_iff]
      constructor
      · rintro ⟨r, hr, hx⟩
        rcases List.mem_append.mp hr with hp | hbq
        · exact Or.inl ⟨r, hp, hx⟩
        · rcases List.mem_cons.mp hbq with heq | hq
          · subst heq
            exact Or.inr (Or.inl hx)
          · exact Or.inr (Or.inr ⟨r, hq, hx⟩)
      · rintro (⟨r, hr, hx⟩ | hx | ⟨r, hr, hx⟩)
        · exact ⟨r, List.mem_append_left _ hr, hx⟩
        · exact ⟨_, List.mem_append_right _ (List.mem_cons_self _ Q), hx⟩
        · exact ⟨r, List.mem_append_right _ (List.mem_cons_of_mem _ hr), hx⟩
    rw [hsplit]
    constructor
    · rintro (⟨r, hr, hx⟩ | hx | ⟨r, hr, hx⟩)
      · exact Or.inl (inRegions_iff.mpr ⟨r, hPmeml r hr, hx⟩)
      · by_cases hxB : x ≤ B.2
        · exact Or.inl (inRegions_iff.mpr ⟨B, hBmem, hx.1, hxB⟩)
        · push_neg at hxB
          have hxE2 : x ≤ E2 := by
            rcases hx with ⟨_, hx2⟩
            by_cases hc : B.2 < E2
            · rw [if_pos hc] at hx2
              exact hx2
            · rw [if_neg hc] at hx2
              omega
          have hxS : S ≤ x := by omega
          by_cases hxE0 : x ≤ E0
          · exact Or.inr ⟨hxS, hxE0⟩
          · push_neg at hxE0
            have hext : E2 = A.2 ∧ E0 < A.2 := by
              rw [hE2] at hxE2 ⊢
              split at hxE2
              · rename_i hc
                exact ⟨if_pos hc, hc.2⟩
              · omega
            refine Or.inl (inRegions_iff.mpr ⟨A, hAmem, ?_, ?_⟩)
            · omega
            · omega
      · exact Or.inl (inRegions_iff.mpr ⟨r, (hQmeml r hr).1, hx⟩)
    · rintro (hin | ⟨hx1, hx2⟩)
      · obtain ⟨r, hr, hx⟩ := inRegions_iff.mp hin
        by_cases hkeep : r.1 ≤ B.1 ∨ A.1 < r.1
        · have hr1 : r ∈ P ++ B :: Q := by
            rw [← hPQ]
            exact (hkeep_iff r).mpr ⟨hr, hkeep⟩
          rcases List.mem_append.mp hr1 with hp | hbq
          · exact Or.inl ⟨r, hp, hx⟩
          · rcases List.mem_cons.mp hbq with heq | hq
            · subst heq
              refine Or.inr (Or.inl ⟨hx.1, ?_⟩)
              omega
            · exact Or.inr (Or.inr ⟨r, hq, hx⟩)
        · obtain ⟨h1, h2, h3⟩ := hdropped r hr hkeep
          refine Or.inr (Or.inl ⟨by omega, ?_⟩)
          omega
      · refine Or.inr (Or.inl ⟨by omega, ?_⟩)
        omega

/-- One H5FD__core_add_dirty_region call on a good index with a write
range s0 .. e0 (inclusive, nonempty, ending below the current eof)
preserves the index invariant and makes the union of the index grow by
exactly the page-rounded clamped bytes of the write. -/
theorem add_dirty_good_union (psize eof : Nat) (l : List Region) (s0 e0 : Nat)
    (hp : 0 < psize) (hse : s0 ≤ e0) (he : e0 < eof) (hg : GoodList l) :
    GoodList (H5FD__core_add_dirty_region psize eof l s0 e0).result ∧
      ∀ x, inRegions (H5FD__core_add_dirty_region psize eof l s0 e0).result x
          = true ↔
        (inRegions l x = true ∨
          (roundStart psize s0 ≤ x ∧ x ≤ roundEnd psize eof e0)) := by
  have hSle : roundStart psize s0 ≤ s0 := roundStart_le psize s0
  have hE0ge : e0 ≤ roundEnd psize eof e0 := roundEnd_ge hp he
  have hSE : roundStart psize s0 ≤ roundEnd psize eof e0 := by omega
  rcases ha : H5SL_less l (roundEnd psize eof e0 + 2) with _ | A
  · -- no after node, hence no before node either: plain insert into l
    have hb : H5SL_less l (roundStart psize s0 + 1) = none :=
      H5SL_less_mono_none ha (by omega)
    have hnlt := H5SL_less_none ha
    have hsearch : H5SL_search l (roundStart psize s0) = none := by
      unfold H5SL_search
      apply List.find?_eq_none.mpr
      intro r hr
      have := hnlt r hr
      simp only [beq_iff_eq]
      omega
    unfold H5FD__core_add_dirty_region removeLoopO
    simp only [ha, hb, hsearch, if_true]
    constructor
    · apply H5SL_insert_good (by simp only; omega) hg
      intro r hr
      have := hnlt r hr
      right
      omega
    · intro x
      rw [inRegions_H5SL_insert]
  · rcases hb : H5SL_less l (roundStart psize s0 + 1) with _ | B
    · -- no before node: always a new node at the rounded start
      have hbn := H5SL_less_none hb
      have hsep : ∀ r ∈ l, r.1 ≤ roundStart psize s0 →
          r.2 + 1 < roundStart psize s0 := by
        intro r hr hle
        have := hbn r hr
        omega
      have hsearch : H5SL_search (removeLoop l A (roundStart psize s0))
          (roundStart psize s0) = none := by
        unfold H5SL_search
        apply List.find?_eq_none.mpr
        intro r hr
        have hrl : r ∈ l := by
          rw [removeLoop_filter (roundStart psize s0) A.1 l A (le_refl A.1) hg
            (H5SL_less_mem_lt ha).1] at hr
          exact List.mem_of_mem_filter hr
        have := hbn r hrl
        simp only [beq_iff_eq]
        omega
      have hres := add_dirty_insert_case l (roundStart psize s0)
        (roundEnd psize eof e0)
        (if roundStart psize s0 < A.1 ∧ roundEnd psize eof e0 < A.2 then A.2
          else roundEnd psize eof e0) A hg hSE ha rfl hsep
      unfold H5FD__core_add_dirty_region removeLoopO
      simp only [ha, hb, hsearch, if_true]
      exact hres
    · by_cases hmerge : roundStart psize s0 ≤ B.2 + 1
      · -- merge into the before node
        have hres := add_dirty_merge_case l (roundStart psize s0)
          (roundEnd psize eof e0)
          (if roundStart psize s0 < A.1 ∧ roundEnd psize eof e0 < A.2 then A.2
            else roundEnd psize eof e0) A B hg hSE ha hb rfl hmerge
        unfold H5FD__core_add_dirty_region removeLoopO
        simp only [ha, hb, if_pos hmerge, if_false]
        exact hres
      · -- before node exists but does not touch: new node at the start
        obtain ⟨hBmem, hBlt⟩ := H5SL_less_mem_lt hb
        have hBmax := H5SL_less_max hg hb
        have hBv : B.1 ≤ B.2 := hg.1 B hBmem
        have hsep : ∀ r ∈ l, r.1 ≤ roundStart psize s0 →
            r.2 + 1 < roundStart psize s0 := by
          intro r hr hle
          by_cases hrB : r = B
          · subst hrB
            omega
          · have hr1 : r.1 ≤ B.1 := hBmax r hr (by omega)
            have hlt : r.1 < B.1 := by
              have := good_start_ne hg hr hBmem hrB
              omega
            have hsepr : Sep r B := by
              rcases good_sep_or hg hr hBmem hrB with h | h
              · exact h
              · unfold Sep at h
                omega
            unfold Sep at hsepr
            omega
        have hne : ∀ r ∈ l, r.1 ≠ roundStart psize s0 := by
          intro r hr hcon
          have hr1 : r.1 ≤ B.1 := hBmax r hr (by omega)
          by_cases hrB : r = B
          · subst hrB
            omega
          · have := good_start_ne hg hr hBmem hrB
            have hsepr : Sep r B := by
              rcases good_sep_or hg hr hBmem hrB with h | h
              · exact h
              · unfold Sep at h
                omega
            unfold Sep at hsepr
            omega
        have hsearch : H5SL_search (removeLoop l A (roundStart psize s0))
            (roundStart psize s0) = none := by
          unfold H5SL_search
          apply List.find?_eq_none.mpr
          intro r hr
          have hrl : r ∈ l := by
            rw [removeLoop_filter (roundStart psize s0) A.1 l A (le_refl A.1) hg
              (H5SL_less_mem_lt ha).1] at hr
            exact List.mem_of_mem_filter hr
          have := hne r hrl
          simp only [beq_iff_eq]
          omega
        have hres := add_dirty_insert_case l (roundStart psize s0)
          (roundEnd psize eof e0)
          (if roundStart psize s0 < A.1 ∧ roundEnd psize eof e0 < A.2 then A.2
            else roundEnd psize eof e0) A hg hSE ha rfl hsep
        unfold H5FD__core_add_dirty_region removeLoopO
        simp only [ha, hb, if_neg hmerge, hsearch, if_true]
        exact hres

/-- A successful tracked write updates the dirty index by exactly one
H5FD__core_add_dirty_region call at the post-extension eof. -/
theorem core_write_tracked_step {f f' : H5FD_core_t} {addr : Nat}
    {buf : List Nat} {dl : List Region} (hinc : 0 < f.increment)
    (hdl : f.dirty_list = some dl) (hbuf : buf ≠ [])
    (hok : H5FD__core_write true f addr buf = Except.ok f') :
    f'.dirty_list = some (H5FD__core_add_dirty_region f.bstore_page_size
        f'.eof dl addr (addr + buf.length - 1)).result ∧
      addr ≤ addr + buf.length - 1 ∧
      addr + buf.length - 1 < f'.eof ∧
      f'.bstore_page_size = f.bstore_page_size ∧
      f'.increment = f.increment := by
  obtain ⟨hov, hm, he, hinc1, hps1, _, hdl1, _⟩ := core_write_ok_shape hok
  have hlen : 1 ≤ buf.length := by
    cases buf with
    | nil => exact absurd rfl hbuf
    | cons a rest => simp
  have hcov : addr + buf.length ≤ (coreExtend f addr buf.length).eof :=
    coreExtend_eof_ge f addr buf.length hinc
  refine ⟨?_, by omega, by omega, hps1, hinc1⟩
  rw [he]
  exact hdl1 dl hdl

/-- Invariant carried along a run of tracked writes: the index stays
good, and its union is the starting union plus the recorded per-write
page-rounded clamped regions. -/
theorem runWrites_dirty_invariant (ws : List (Nat × List Nat)) :
    ∀ (f g : H5FD_core_t) (exps : List Region) (dl : List Region),
      0 < f.increment → 0 < f.bstore_page_size →
      f.dirty_list = some dl → GoodList dl →
      (∀ w ∈ ws, (w.2 : List Nat) ≠ []) →
      runWrites f ws = some (g, exps) →
      ∃ dg, g.dirty_list = some dg ∧ GoodList dg ∧
        ∀ x, inRegions dg x = true ↔
          (inRegions dl x = true ∨ ∃ r ∈ exps, r.1 ≤ x ∧ x ≤ r.2) := by
  induction ws with
  | nil =>
    intro f g exps dl hinc hps hdl hg _ hrun
    simp only [runWrites, Option.some.injEq] at hrun
    cases hrun
    refine ⟨dl, hdl, hg, ?_⟩
    intro x
    simp
  | cons w rest ih =>
    intro f g exps dl hinc hps hdl hg hws hrun
    obtain ⟨addr, buf⟩ := w
    rcases hw : H5FD__core_write true f addr buf with f1 | f1
    · simp [runWrites, hw] at hrun
    · rcases hr : runWrites f1 rest with _ | p
      · simp [runWrites, hw, hr] at hrun
      · simp only [runWrites, hw, hr, Option.map_some, Option.some.injEq] at hrun
        have hbuf : buf ≠ [] := hws (addr, buf) (List.mem_cons_self _ rest)
        obtain ⟨hdl1, hse, he, hps1, hinc1⟩ :=
          core_write_tracked_step hinc hdl hbuf hw
        obtain ⟨hgood1, hunion1⟩ := add_dirty_good_union f.bstore_page_size
          f1.eof dl addr (addr + buf.length - 1) hps hse he hg
        have hih := ih f1 p.1 p.2 _ (by omega) (by omega) hdl1 hgood1
          (fun v hv => hws v (List.mem_cons_of_mem _ hv)) (by rw [hr])
        obtain ⟨dg, hdg, hgoodg, hu⟩ := hih
        cases hrun
        refine ⟨dg, hdg, hgoodg, ?_⟩
        intro x
        rw [hu x, hunion1 x]
        constructor
        · rintro ((hbase | hnew) | ⟨r, hr2, hx⟩)
          · exact Or.inl hbase
          · exact Or.inr ⟨_, List.mem_cons_self _ _, hnew⟩
          · exact Or.inr ⟨r, List.mem_cons_of_mem _ hr2, hx⟩
        · rintro (hbase | ⟨r, hr2, hx⟩)
          · exact Or.inl (Or.inl hbase)
          · rcases List.mem_cons.mp hr2 with heq | hr3
            · subst heq
              exact Or.inl (Or.inr hx)
            · exact Or.inr ⟨r, hr3, hx⟩

/-- Claim C3 (amended): for a core file opened over an existing backing
file with write tracking on (nonzero page size), after any sequence of
successful nonempty writes the dirty index is well formed (regions with
start at most end, pairwise non-overlapping and non-touching, sorted by
start) and the union of its byte ranges equals the union over the writes
of the page-rounded region recorded at the time of that write: start
rounded down to a page boundary, end rounded up to one less than a page
boundary and clamped against the eof in effect just after that write
extended the file (clamped to eof - 1 only when the rounded end strictly
exceeds that eof). -/
theorem core_dirty_region_invariant (backing : List Nat)
    (fa_inc psize : Nat) (ws : List (Nat × List Nat)) (g : H5FD_core_t)
    (exps : List Region) (hp : 0 < psize)
    (hws : ∀ w ∈ ws, (w.2 : List Nat) ≠ [])
    (hrun : runWrites
        (H5FD__core_open_existing backing fa_inc psize true true true) ws =
      some (g, exps)) :
    ∃ dg, g.dirty_list = some dg ∧ GoodList dg ∧
      ∀ x, inRegions dg x = true ↔ ∃ r ∈ exps, r.1 ≤ x ∧ x ≤ r.2 := by
  have hdl : (H5FD__core_open_existing backing fa_inc psize true true true).dirty_list
      = some [] := by
    show (if true && true && true && (psize != 0) then some [] else none) = some []
    have : (psize != 0) = true := by
      simp only [bne_iff_ne, ne_eq]
      omega
    rw [this]
    rfl
  have hinc : 0 < (H5FD__core_open_existing backing fa_inc psize true true true).increment := by
    show 0 < (if fa_inc > 0 then fa_inc else 8192)
    split <;> omega
  have hps : 0 < (H5FD__core_open_existing backing fa_inc psize true true true).bstore_page_size :=
    hp
  obtain ⟨dg, hdg, hgood, hu⟩ := runWrites_dirty_invariant ws _ g exps []
    hinc hps hdl ⟨by simp, by simp⟩ hws hrun
  refine ⟨dg, hdg, hgood, ?_⟩
  intro x
  rw [hu x]
  simp [inRegions]

/-- Modelled from the spec: the pure page-aligned expansion of a write
range, as the claim words it (start rounded down to a page boundary, end
rounded up to one less than a page boundary), with no eof clamping; the
claim intersects these with the interval from 0 to the current eof. -/
def pageExpandPure (psize addr size : Nat) : Region :=
  (roundStart psize addr,
    if (addr + size - 1) % psize ≠ psize - 1 then
      ((addr + size - 1) / psize + 1) * psize - 1
    else addr + size - 1)

/-- The dirty-region part of claim C3 as stated: the index regions are
well formed and their union equals the union of the page-aligned
expansions of all written ranges intersected with the bytes below the
file's current eof. -/
def specClaimC3 (f : H5FD_core_t) (writes : List (Nat × Nat)) : Prop :=
  ∀ dl, f.dirty_list = some dl →
    GoodList dl ∧
      ∀ x, inRegions dl x = true ↔
        (x < f.eof ∧ ∃ w ∈ writes,
          (pageExpandPure f.bstore_page_size w.1 w.2).1 ≤ x ∧
            x ≤ (pageExpandPure f.bstore_page_size w.1 w.2).2)

/-- Counterexample to claim C3 as stated: opening a 7-byte backing file
with page size 8 and writing two bytes at address 0 stores the region
0 .. 7 in the index (the rounded end 7 is not clamped because the C
comparison is end > eof, and eof is 7), so byte 7 is in the index union
but not in any set intersected with the bytes below eof = 7. -/
theorem core_dirty_region_claim_counterexample :
    runWrites (H5FD__core_open_existing (List.replicate 7 0) 4 8 true true true)
        [(0, [1, 1])] =
      some (⟨[1, 1, 0, 0, 0, 0, 0], 7, 4, 8, some [(0, 7)], true⟩, [(0, 7)]) ∧
      ¬ specClaimC3 ⟨[1, 1, 0, 0, 0, 0, 0], 7, 4, 8, some [(0, 7)], true⟩
          [(0, 2)] := by
  refine ⟨by rfl, ?_⟩
  intro h
  obtain ⟨-, hiff⟩ := h [(0, 7)] rfl
  have h7 := (hiff 7).mp (by decide)
  exact absurd h7.1 (by decide)

/-- Witness for C3 (amended) on one concrete write: the index holds the
single region 0 .. 7 and its union is the recorded expansion. -/
theorem core_dirty_region_invariant_witness :
    ∃ dg, (⟨[1, 1, 0, 0, 0, 0, 0], 7, 4, 8, some [(0, 7)], true⟩ :
        H5FD_core_t).dirty_list = some dg ∧ GoodList dg ∧
      ∀ x, inRegions dg x = true ↔
        ∃ r ∈ ([(0, 7)] : List Region), r.1 ≤ x ∧ x ≤ r.2 :=
  core_dirty_region_invariant (List.replicate 7 0) 4 8 [(0, [1, 1])]
    ⟨[1, 1, 0, 0, 0, 0, 0], 7, 4, 8, some [(0, 7)], true⟩ [(0, 7)]
    (by decide) (by decide) (by rfl)

end HDF5
